import Mathlib

/-!
Verification development for the Ceagle web client (web/src/api.js).

The JavaScript source is shallowly embedded: each JS function used by the
checked properties is translated into an executable Lean definition.
JS numbers are modelled as exact integers/rationals (all values involved are
small integers, well inside the exactly-representable double range); JS
strings as Lean `String` (ASCII-faithful for the primitives used:
`toLowerCase`, `trim`, `parseInt` whitespace skipping).
-/

namespace Ceagle

/-- An asset record as read from the backend (the fields this development
needs). `format : Option String` models the `typeof asset.format === "string"`
check: `none` stands for a missing/non-string `format`. -/
structure Asset where
  id : Nat
  filename : String
  format : Option String
  colors : List String
deriving DecidableEq, Repr

/-! ## JS primitives -/

/-- JS `Math.round(num/den)` for integers `num`, `den` with `den > 0`,
computed exactly: `Math.round(x) = ⌊x + 1/2⌋`, and
`⌊num/den + 1/2⌋ = ⌊(2*num + den)/(2*den)⌋` (floor division). -/
def jsRound (num den : Int) : Int :=
  Int.fdiv (2 * num + den) (2 * den)

/-- JS `String.prototype.toLowerCase` on one character (ASCII range; the
strings this program lowercases are hex digits, file names and format tags). -/
def jsCharToLower (c : Char) : Char :=
  if 65 ≤ c.toNat ∧ c.toNat ≤ 90 then Char.ofNat (c.toNat + 32) else c

/-- JS `String.prototype.toLowerCase` (character-wise, ASCII-faithful). -/
def jsStrToLower (s : String) : String :=
  String.mk (s.data.map jsCharToLower)

/-- Whitespace removed by JS `String.prototype.trim` (ASCII range). -/
def jsIsTrimmable (c : Char) : Bool :=
  c = ' ' || c = '\t' || c = '\n' || c = '\r' || c.toNat = 11 || c.toNat = 12

/-- JS `String.prototype.trim`: strip leading and trailing whitespace. -/
def jsTrim (s : String) : String :=
  String.mk (((s.data.dropWhile jsIsTrimmable).reverse.dropWhile jsIsTrimmable).reverse)

/-- Whitespace skipped by JS `parseInt` (ASCII whitespace characters). -/
def jsIsWhite (c : Char) : Bool :=
  c = ' ' || c = '\t' || c = '\n' || c = '\r' || c.toNat = 11 || c.toNat = 12

/-- Value of a hexadecimal digit character (`0-9`, `a-f`, `A-F`), as used by
`parseInt(s, 16)`. -/
def hexVal (c : Char) : Option Nat :=
  if 48 ≤ c.toNat ∧ c.toNat ≤ 57 then some (c.toNat - 48)
  else if 97 ≤ c.toNat ∧ c.toNat ≤ 102 then some (c.toNat - 87)
  else if 65 ≤ c.toNat ∧ c.toNat ≤ 70 then some (c.toNat - 55)
  else none

/-- JS `parseInt(s, 16)`: skip leading whitespace, optional sign, optional
`0x`/`0X`, then the longest run of hex digits; `none` models `NaN`
(no digits). Trailing garbage is ignored, exactly as in JS. -/
def jsParseIntHex (s : String) : Option Int :=
  let cs := s.data.dropWhile jsIsWhite
  let signAndRest : Int × List Char :=
    match cs with
    | '+' :: t => (1, t)
    | '-' :: t => (-1, t)
    | _ => (1, cs)
  let body : List Char :=
    match signAndRest.2 with
    | '0' :: x :: t => if x = 'x' ∨ x = 'X' then t else signAndRest.2
    | l => l
  let digits := body.takeWhile (fun c => (hexVal c).isSome)
  if digits.isEmpty then none
  else
    some (signAndRest.1 *
      (digits.foldl (fun acc c => acc * 16 + (((hexVal c).getD 0 : Nat) : Int)) (0 : Int)))

/-- JS `s.replace("#", "")`: remove the first occurrence of `#` only. -/
def replaceFirstHash (s : String) : String :=
  let rec go : List Char → List Char
    | [] => []
    | c :: t => if c = '#' then t else c :: go t
  String.mk (go s.data)

/-- One lowercase hex digit, as produced by JS `Number.prototype.toString(16)`. -/
def hexDigitChar (d : Nat) : Char :=
  if d < 10 then Char.ofNat (48 + d) else Char.ofNat (87 + d)

/-- Hex digit expansion of a natural number (most significant first); the
first argument is fuel, structurally decreasing so that the kernel can
evaluate it (any fuel above the digit count gives the same result). -/
def natHexAux : Nat → Nat → List Char
  | 0, _ => []
  | fuel + 1, n => if n = 0 then [] else natHexAux fuel (n / 16) ++ [hexDigitChar (n % 16)]

/-- JS `n.toString(16)` for a natural number. -/
def natHex (n : Nat) : String :=
  if n = 0 then "0" else String.mk (natHexAux (n + 1) n)

/-- JS `n.toString(16)` for an integer (negative values render as `-` plus
the magnitude, exactly as in JS). -/
def intHex (n : Int) : String :=
  if n < 0 then "-" ++ natHex n.natAbs else natHex n.toNat

/-- JS `n.toString(16).padStart(2, "0")`, the `toHex` helper of
`buildColorGroups` (api.js line 997). -/
def toHexTwo (n : Int) : String :=
  let s := intHex n
  if s.length ≤ 1 then "0" ++ s else s

/-! ## Color clustering (api.js lines 968-1002) -/

/-- Result of `parseHexColor` (api.js lines 968-976). -/
structure Rgb where
  r : Int
  g : Int
  b : Int
  hex : String
deriving DecidableEq, Repr

/-- `parseHexColor` (api.js lines 968-976): trim, drop the first `#`, require
length 6, parse the three 2-character slices with `parseInt(·, 16)`;
`none` when any channel is `NaN`. -/
def parseHexColor (value : String) : Option Rgb :=
  let normalized := replaceFirstHash (jsTrim value)
  if normalized.length ≠ 6 then none
  else
    let r := jsParseIntHex (String.mk (normalized.data.take 2))
    let g := jsParseIntHex (String.mk ((normalized.data.drop 2).take 2))
    let b := jsParseIntHex (String.mk ((normalized.data.drop 4).take 2))
    match r, g, b with
    | some r, some g, some b =>
        some { r := r, g := g, b := b, hex := "#" ++ jsStrToLower normalized }
    | _, _, _ => none

/-- A color group (api.js line 990): running centroid, member count and
display hex. -/
structure ColorGroup where
  r : Int
  g : Int
  b : Int
  count : Nat
  hex : String
deriving DecidableEq, Repr

/-- Squared Euclidean RGB distance. The source compares
`Math.sqrt(d²) <= 28` (api.js lines 978-979, 988); since both sides are
nonnegative this is equivalent to `d² ≤ 28² = 784`, which is what we embed. -/
def colorDistanceSq (ar ag ab br bg bb : Int) : Int :=
  (ar - br) ^ 2 + (ag - bg) ^ 2 + (ab - bb) ^ 2

/-- The `colorDistance(group, rgb) <= threshold` test of api.js line 988. -/
def withinThreshold (g : ColorGroup) (c : Rgb) : Bool :=
  colorDistanceSq g.r g.g g.b c.r c.g c.b ≤ 784

/-- A new singleton group seeded from a swatch (api.js line 990). -/
def seedGroup (c : Rgb) : ColorGroup :=
  { r := c.r, g := c.g, b := c.b, count := 1, hex := c.hex }

/-- Merging a swatch into a found group (api.js lines 993-998): increment
`count`, recompute each channel as `round((old * (count-1) + sample)/count)`
with the incremented count, and recompute `hex` from the new channels. -/
def mergeGroup (g : ColorGroup) (c : Rgb) : ColorGroup :=
  let count' := g.count + 1
  let r' := jsRound (g.r * (count' - 1) + c.r) count'
  let g' := jsRound (g.g * (count' - 1) + c.g) count'
  let b' := jsRound (g.b * (count' - 1) + c.b) count'
  { r := r', g := g', b := b', count := count',
    hex := "#" ++ toHexTwo r' ++ toHexTwo g' ++ toHexTwo b' }

/-- Processing one parsed swatch (api.js lines 988-998): `groups.find` locates
the first group within the threshold and is mutated in place; if none
matches, a fresh singleton is pushed at the end. -/
def addSwatch : List ColorGroup → Rgb → List ColorGroup
  | [], c => [seedGroup c]
  | g :: gs, c =>
      if withinThreshold g c then mergeGroup g c :: gs
      else g :: addSwatch gs c

/-- The group accumulation of `buildColorGroups` before the final sort
(api.js lines 984-1000): every color of every asset, in order; swatches that
fail to parse are discarded. -/
def accumColorGroups (data : List Asset) : List ColorGroup :=
  data.foldl
    (fun gs a =>
      a.colors.foldl
        (fun gs c =>
          match parseHexColor c with
          | none => gs
          | some rgb => addSwatch gs rgb)
        gs)
    []

/-- `buildColorGroups` (api.js lines 981-1002): accumulate groups, then
`sort((a, b) => b.count - a.count)` — a stable sort by descending count,
embedded as an insertion sort (JS `Array.prototype.sort` is stable). -/
def buildColorGroups (data : List Asset) : List ColorGroup :=
  List.insertionSort (fun a b => b.count ≤ a.count) (accumColorGroups data)

/-! ## Claim-side model: merging into the nearest group

The claim (and spec §4.4) says a swatch is merged into the *nearest*
existing group when that nearest distance is within the threshold. The
following definitions follow the claim's words, for comparison against
`addSwatch`, which follows the source. -/

/-- Modelled from the claim's words: index and squared distance of the
group nearest to the swatch (first among ties). -/
def bestIdx (gs : List ColorGroup) (c : Rgb) : Option (Nat × Int) :=
  gs.enum.foldl
    (fun best p =>
      let d := colorDistanceSq p.2.r p.2.g p.2.b c.r c.g c.b
      match best with
      | none => some (p.1, d)
      | some q => if d < q.2 then some (p.1, d) else some q)
    none

/-- Modelled from the claim's words: merge into the nearest group when it is
within the threshold, otherwise start a new singleton group. -/
def addSwatchNearest (gs : List ColorGroup) (c : Rgb) : List ColorGroup :=
  match bestIdx gs c with
  | some (i, d) =>
      if d ≤ 784 then
        match gs.get? i with
        | some g => gs.set i (mergeGroup g c)
        | none => gs ++ [seedGroup c]
      else gs ++ [seedGroup c]
  | none => gs ++ [seedGroup c]

/-- Modelled from the claim's words: `buildColorGroups` with nearest-group
merging. -/
def buildColorGroupsNearest (data : List Asset) : List ColorGroup :=
  List.insertionSort (fun a b => b.count ≤ a.count)
    (data.foldl
      (fun gs a =>
        a.colors.foldl
          (fun gs c =>
            match parseHexColor c with
            | none => gs
            | some rgb => addSwatchNearest gs rgb)
          gs)
      [])

/-! ## Well-formedness invariant for color groups (claim C10) -/

/-- Ranges plus hex/centroid consistency for a parsed swatch. -/
def RgbWF (p : Rgb) : Prop :=
  0 ≤ p.r ∧ p.r ≤ 255 ∧ 0 ≤ p.g ∧ p.g ≤ 255 ∧ 0 ≤ p.b ∧ p.b ≤ 255 ∧
  p.hex = "#" ++ toHexTwo p.r ++ toHexTwo p.g ++ toHexTwo p.b

/-- A color string is good when it either fails to parse or parses to a
well-formed swatch; true in particular for every canonical `#rrggbb` string. -/
def goodColor (c : String) : Bool :=
  match parseHexColor c with
  | none => true
  | some p =>
      decide (0 ≤ p.r ∧ p.r ≤ 255 ∧ 0 ≤ p.g ∧ p.g ≤ 255 ∧ 0 ≤ p.b ∧ p.b ≤ 255) &&
      (p.hex == "#" ++ toHexTwo p.r ++ toHexTwo p.g ++ toHexTwo p.b)

/-- The group invariant: channels in range and `hex` recomputable from the
centroid. -/
def GroupWF (g : ColorGroup) : Prop :=
  0 ≤ g.r ∧ g.r ≤ 255 ∧ 0 ≤ g.g ∧ g.g ≤ 255 ∧ 0 ≤ g.b ∧ g.b ≤ 255 ∧
  g.hex = "#" ++ toHexTwo g.r ++ toHexTwo g.g ++ toHexTwo g.b

lemma goodColor_wf {c : String} {p : Rgb} (hg : goodColor c = true)
    (hp : parseHexColor c = some p) : RgbWF p := by
  unfold goodColor at hg
  rw [hp] at hg
  simp only [Bool.and_eq_true, decide_eq_true_eq, beq_iff_eq] at hg
  exact ⟨hg.1.1, hg.1.2.1, hg.1.2.2.1, hg.1.2.2.2.1, hg.1.2.2.2.2.1, hg.1.2.2.2.2.2, hg.2⟩

lemma jsRound_bounds {num den : Int} (hden : 0 < den) (h0 : 0 ≤ num)
    (h1 : num ≤ 255 * den) : 0 ≤ jsRound num den ∧ jsRound num den ≤ 255 := by
  unfold jsRound
  constructor
  · exact Int.fdiv_nonneg (by omega) (by omega)
  · rw [Int.fdiv_eq_ediv _ (by omega)]
    have h2 : 2 * num + den < 256 * (2 * den) := by omega
    have h3 := (Int.ediv_lt_iff_lt_mul (show (0 : Int) < 2 * den by omega)).mpr
      (show 2 * num + den < 256 * (2 * den) by omega)
    omega

lemma mergeGroup_wf {g : ColorGroup} {c : Rgb} (hg : GroupWF g)
    (hr0 : 0 ≤ c.r) (hr1 : c.r ≤ 255) (hg0 : 0 ≤ c.g) (hg1 : c.g ≤ 255)
    (hb0 : 0 ≤ c.b) (hb1 : c.b ≤ 255) : GroupWF (mergeGroup g c) := by
  obtain ⟨h1, h2, h3, h4, h5, h6, _⟩ := hg
  have hcount : (0 : Int) ≤ (g.count : Int) := Int.ofNat_nonneg g.count
  have hden : (0 : Int) < ((g.count + 1 : Nat) : Int) := by push_cast; omega
  have key : ∀ ch sm : Int, 0 ≤ ch → ch ≤ 255 → 0 ≤ sm → sm ≤ 255 →
      0 ≤ jsRound (ch * (((g.count + 1 : Nat) : Int) - 1) + sm) ((g.count + 1 : Nat) : Int) ∧
      jsRound (ch * (((g.count + 1 : Nat) : Int) - 1) + sm) ((g.count + 1 : Nat) : Int) ≤ 255 := by
    intro ch sm hc0 hc1 hs0 hs1
    have hsub : ((g.count + 1 : Nat) : Int) - 1 = (g.count : Int) := by push_cast; omega
    rw [hsub]
    apply jsRound_bounds hden
    · have := mul_nonneg hc0 hcount
      omega
    · have hmul : ch * (g.count : Int) ≤ 255 * (g.count : Int) :=
        mul_le_mul_of_nonneg_right hc1 hcount
      push_cast
      omega
  unfold GroupWF mergeGroup
  dsimp only
  refine ⟨(key g.r c.r h1 h2 hr0 hr1).1, (key g.r c.r h1 h2 hr0 hr1).2,
    (key g.g c.g h3 h4 hg0 hg1).1, (key g.g c.g h3 h4 hg0 hg1).2,
    (key g.b c.b h5 h6 hb0 hb1).1, (key g.b c.b h5 h6 hb0 hb1).2, rfl⟩

lemma addSwatch_wf {gs : List ColorGroup} {c : Rgb} (hgs : ∀ g ∈ gs, GroupWF g)
    (hc : RgbWF c) : ∀ g' ∈ addSwatch gs c, GroupWF g' := by
  obtain ⟨h1, h2, h3, h4, h5, h6, h7⟩ := hc
  induction gs with
  | nil =>
      intro g' hg'
      simp only [addSwatch, List.mem_singleton] at hg'
      subst hg'
      exact ⟨h1, h2, h3, h4, h5, h6, h7⟩
  | cons g gs ih =>
      intro g' hg'
      by_cases hw : withinThreshold g c = true
      · simp only [addSwatch, hw, if_true, List.mem_cons] at hg'
        rcases hg' with hg' | hg'
        · subst hg'
          exact mergeGroup_wf (hgs g (List.mem_cons_self g gs)) h1 h2 h3 h4 h5 h6
        · exact hgs g' (List.mem_cons_of_mem g hg')
      · simp only [addSwatch, hw, if_false, Bool.not_eq_true] at hg'
        rw [if_neg (by simp [hw])] at hg'
        rcases List.mem_cons.mp hg' with hg' | hg'
        · subst hg'
          exact hgs g' (List.mem_cons_self g' gs)
        · exact ih (fun g hg => hgs g (List.mem_cons_of_mem _ hg)) g' hg'

lemma foldColors_wf (colors : List String) (gs : List ColorGroup)
    (hgs : ∀ g ∈ gs, GroupWF g) (hc : ∀ c ∈ colors, goodColor c = true) :
    ∀ g ∈ colors.foldl
      (fun gs c => match parseHexColor c with
        | none => gs
        | some rgb => addSwatch gs rgb) gs, GroupWF g := by
  induction colors generalizing gs with
  | nil => simpa using hgs
  | cons c cs ih =>
      intro g hg
      simp only [List.foldl_cons] at hg
      rcases hp : parseHexColor c with _ | p
      · rw [hp] at hg
        exact ih gs hgs (fun c hc' => hc c (List.mem_cons_of_mem _ hc')) g hg
      · rw [hp] at hg
        exact ih _ (addSwatch_wf hgs (goodColor_wf (hc c (List.mem_cons_self c cs)) hp))
          (fun c hc' => hc c (List.mem_cons_of_mem _ hc')) g hg

lemma accumColorGroups_wf (data : List Asset)
    (h : ∀ a ∈ data, ∀ c ∈ a.colors, goodColor c = true) :
    ∀ g ∈ accumColorGroups data, GroupWF g := by
  unfold accumColorGroups
  suffices H : ∀ gs : List ColorGroup, (∀ g ∈ gs, GroupWF g) →
      ∀ g ∈ data.foldl
        (fun gs a => a.colors.foldl
          (fun gs c => match parseHexColor c with
            | none => gs
            | some rgb => addSwatch gs rgb) gs) gs, GroupWF g by
    exact H [] (by simp)
  induction data with
  | nil => intro gs hgs; simpa using hgs
  | cons a as ih =>
      intro gs hgs g hg
      simp only [List.foldl_cons] at hg
      exact ih (fun a ha c hc => h a (List.mem_cons_of_mem _ ha) c hc) _
        (foldColors_wf a.colors gs hgs (h a (List.mem_cons_self a as))) g hg

/-! ## Claims C1 and C10 -/

/-- Claim C1, counterexample. On the swatch sequence
`#000000`, `#280000` (= rgb 40,0,0), `#190000` (= rgb 25,0,0) the third swatch
is at squared distance 225 from the second group (within the threshold
`28² = 784`) and 625 from the first group, so the *nearest* group is the
second; yet the source merges it into the *first* group within the threshold
(`groups.find`), producing a different grouping than the claim's
nearest-group rule (`buildColorGroupsNearest`, modelled from the claim's
words). -/
theorem C1_counterexample :
    buildColorGroups [⟨1, "a", none, ["#000000", "#280000", "#190000"]⟩] =
      [⟨13, 0, 0, 2, "#0d0000"⟩, ⟨40, 0, 0, 1, "#280000"⟩] ∧
    buildColorGroupsNearest [⟨1, "a", none, ["#000000", "#280000", "#190000"]⟩] =
      [⟨33, 0, 0, 2, "#210000"⟩, ⟨0, 0, 0, 1, "#000000"⟩] ∧
    colorDistanceSq 25 0 0 40 0 0 = 225 ∧
    colorDistanceSq 25 0 0 0 0 0 = 625 ∧
    ((225 : Int) ≤ 784 ∧ (625 : Int) ≤ 784) ∧
    buildColorGroups [⟨1, "a", none, ["#000000", "#280000", "#190000"]⟩] ≠
      buildColorGroupsNearest [⟨1, "a", none, ["#000000", "#280000", "#190000"]⟩] := by
  decide

/-- Claim C1 as amended: a swatch is merged into the *first* existing group
whose centroid is within Euclidean distance 28 (not the nearest), with the
centroid updated per channel to `round((old*(count-1)+sample)/count)`; a
swatch farther than 28 from every existing centroid starts a new singleton
group appended at the end; and for a batch whose only two swatches are at
distance ≤ 28, both land in one group whose centroid is the rounded
per-channel mean, while at distance > 28 they form two singleton groups. -/
theorem C1_theorem :
    (∀ (g : ColorGroup) (gs : List ColorGroup) (c : Rgb),
        withinThreshold g c = true → addSwatch (g :: gs) c = mergeGroup g c :: gs) ∧
    (∀ (gs : List ColorGroup) (c : Rgb),
        (∀ g ∈ gs, withinThreshold g c = false) → addSwatch gs c = gs ++ [seedGroup c]) ∧
    (∀ (k : Nat) (fn : String) (fm : Option String) (c1 c2 : String) (p1 p2 : Rgb),
        parseHexColor c1 = some p1 → parseHexColor c2 = some p2 →
        (colorDistanceSq p1.r p1.g p1.b p2.r p2.g p2.b ≤ 784 →
          buildColorGroups [⟨k, fn, fm, [c1, c2]⟩] =
            [⟨jsRound (p1.r + p2.r) 2, jsRound (p1.g + p2.g) 2, jsRound (p1.b + p2.b) 2, 2,
              "#" ++ toHexTwo (jsRound (p1.r + p2.r) 2) ++
                toHexTwo (jsRound (p1.g + p2.g) 2) ++ toHexTwo (jsRound (p1.b + p2.b) 2)⟩]) ∧
        (784 < colorDistanceSq p1.r p1.g p1.b p2.r p2.g p2.b →
          buildColorGroups [⟨k, fn, fm, [c1, c2]⟩] = [seedGroup p1, seedGroup p2])) := by
  refine ⟨?_, ?_, ?_⟩
  · intro g gs c h
    simp [addSwatch, h]
  · intro gs c h
    induction gs with
    | nil => simp [addSwatch]
    | cons g gs ih =>
        have hg := h g (List.mem_cons_self g gs)
        simp [addSwatch, hg, ih (fun g' hg' => h g' (List.mem_cons_of_mem _ hg'))]
  · intro k fn fm c1 c2 p1 p2 h1 h2
    have hacc : accumColorGroups [⟨k, fn, fm, [c1, c2]⟩] = addSwatch [seedGroup p1] p2 := by
      simp [accumColorGroups, h1, h2, addSwatch]
    constructor
    · intro hle
      have hw : withinThreshold (seedGroup p1) p2 = true := by
        simp only [withinThreshold, seedGroup, decide_eq_true_eq]
        exact hle
      rw [buildColorGroups, hacc]
      simp only [addSwatch, hw, if_true]
      simp [List.insertionSort, List.orderedInsert, mergeGroup, seedGroup]
    · intro hgt
      have hw : withinThreshold (seedGroup p1) p2 = false := by
        simp only [withinThreshold, seedGroup, decide_eq_false_iff_not]
        omega
      rw [buildColorGroups, hacc]
      simp only [addSwatch, hw, Bool.false_eq_true, if_false]
      simp [List.insertionSort, List.orderedInsert, seedGroup]

/-- Claim C1 witness: concrete instances of the three parts of `C1_theorem`,
including the spec's own scenario `#000000`, `#020202` merging to centroid
`#010101` with count 2. -/
theorem C1_witness :
    addSwatch [⟨0, 0, 0, 1, "#000000"⟩, ⟨100, 0, 0, 1, "#640000"⟩] ⟨2, 2, 2, "#020202"⟩ =
      [mergeGroup ⟨0, 0, 0, 1, "#000000"⟩ ⟨2, 2, 2, "#020202"⟩, ⟨100, 0, 0, 1, "#640000"⟩] ∧
    addSwatch [⟨200, 0, 0, 1, "#c80000"⟩] ⟨0, 0, 0, "#000000"⟩ =
      [⟨200, 0, 0, 1, "#c80000"⟩, seedGroup ⟨0, 0, 0, "#000000"⟩] ∧
    buildColorGroups [⟨1, "w", none, ["#000000", "#020202"]⟩] =
      [⟨1, 1, 1, 2, "#010101"⟩] := by
  refine ⟨C1_theorem.1 _ _ _ (by decide), C1_theorem.2.1 _ _ (by decide), ?_⟩
  have h := (C1_theorem.2.2 1 "w" none "#000000" "#020202" ⟨0, 0, 0, "#000000"⟩
    ⟨2, 2, 2, "#020202"⟩ (by decide) (by decide)).1 (by decide)
  rw [h]
  decide

/-- Claim C10, counterexample. The input swatch `"ff 000"` is accepted by
`parseHexColor` (JS `parseInt` skips leading whitespace inside the 2-char
slice `" 0"`), creating a group with centroid (255,0,0) whose `hex` field is
`"#ff 000"`, not `"#" ++ "ff" ++ "00" ++ "00"`: the invariant fails at group
creation for such inputs. -/
theorem C10_counterexample :
    buildColorGroups [⟨1, "a", none, ["ff 000"]⟩] = [⟨255, 0, 0, 1, "#ff 000"⟩] ∧
    "#ff 000" ≠ "#" ++ toHexTwo 255 ++ toHexTwo 0 ++ toHexTwo 0 := by
  decide

/-- Claim C10 as amended: provided every input color string either fails to
parse or parses to a swatch whose channels lie in 0..255 and whose `hex`
already equals the two-digit lowercase encoding of its channels (true of
every canonical 6-hex-digit string), every group produced by
`buildColorGroups` has channels in 0..255 and `hex` equal to `"#"` followed
by the two-digit lowercase hex encoding of its centroid — established at
group creation and re-established by every merge, which recomputes `hex`
from the freshly rounded centroid. -/
theorem C10_theorem (data : List Asset)
    (h : ∀ a ∈ data, ∀ c ∈ a.colors, goodColor c = true) :
    ∀ g ∈ buildColorGroups data,
      (0 ≤ g.r ∧ g.r ≤ 255 ∧ 0 ≤ g.g ∧ g.g ≤ 255 ∧ 0 ≤ g.b ∧ g.b ≤ 255) ∧
      g.hex = "#" ++ toHexTwo g.r ++ toHexTwo g.g ++ toHexTwo g.b := by
  intro g hg
  rw [buildColorGroups, List.mem_insertionSort] at hg
  obtain ⟨w1, w2, w3, w4, w5, w6, w7⟩ := accumColorGroups_wf data h g hg
  exact ⟨⟨w1, w2, w3, w4, w5, w6⟩, w7⟩

/-- Claim C10 witness: `C10_theorem` applied to a concrete two-swatch asset
list whose merge produces centroid (255,128,64) with hex `#ff8040`. -/
theorem C10_witness :
    ((0 : Int) ≤ 255 ∧ (255 : Int) ≤ 255 ∧ (0 : Int) ≤ 128 ∧ (128 : Int) ≤ 255 ∧
      (0 : Int) ≤ 64 ∧ (64 : Int) ≤ 255) ∧
    "#ff8040" = "#" ++ toHexTwo 255 ++ toHexTwo 128 ++ toHexTwo 64 := by
  have h := C10_theorem [⟨1, "w", none, ["#FF8040", "#ff7f3f"]⟩] (by decide)
    ⟨255, 128, 64, 2, "#ff8040"⟩ (by decide)
  exact h

/-! ## Format facet (api.js lines 431-463, claim C7)

`a.localeCompare(b)` is modelled as code-point lexicographic comparison
(the strings compared are lowercased format tags). -/

/-- Strict lexicographic order on character lists (by code point). -/
def charListLt : List Char → List Char → Bool
  | [], [] => false
  | [], _ :: _ => true
  | _ :: _, [] => false
  | a :: as, b :: bs =>
      if a.toNat < b.toNat then true
      else if b.toNat < a.toNat then false
      else charListLt as bs

/-- String comparison `a.localeCompare(b) < 0` (model). -/
def jsStrLt (a b : String) : Bool := charListLt a.data b.data

/-- String comparison `a.localeCompare(b) <= 0` (model). -/
def jsStrLe (a b : String) : Bool := !charListLt b.data a.data

lemma charListLt_irrefl (a : List Char) : charListLt a a = false := by
  induction a with
  | nil => rfl
  | cons c cs ih => simp [charListLt, ih]

lemma charListLt_trans {a b c : List Char} (h1 : charListLt a b = true)
    (h2 : charListLt b c = true) : charListLt a c = true := by
  induction a generalizing b c with
  | nil =>
      cases c with
      | nil => cases b with
        | nil => exact h1
        | cons y ys => simp [charListLt] at h2
      | cons z zs => simp [charListLt]
  | cons x xs ih =>
      cases b with
      | nil => simp [charListLt] at h1
      | cons y ys =>
          cases c with
          | nil => simp [charListLt] at h2
          | cons z zs =>
              simp only [charListLt] at h1 h2 ⊢
              by_cases hxy : x.toNat < y.toNat
              · by_cases hyz : y.toNat < z.toNat
                · simp [show x.toNat < z.toNat by omega]
                · rw [if_pos hxy] at h1
                  rw [if_neg hyz] at h2
                  by_cases hzy : z.toNat < y.toNat
                  · simp [hzy] at h2
                  · simp [show x.toNat < z.toNat by omega]
              · rw [if_neg hxy] at h1
                by_cases hyx : y.toNat < x.toNat
                · simp [hyx] at h1
                · rw [if_neg hyx] at h1
                  by_cases hyz : y.toNat < z.toNat
                  · simp [show x.toNat < z.toNat by omega]
                  · rw [if_neg hyz] at h2
                    by_cases hzy : z.toNat < y.toNat
                    · simp [hzy] at h2
                    · rw [if_neg hzy] at h2
                      have hxz : ¬ x.toNat < z.toNat := by omega
                      have hzx : ¬ z.toNat < x.toNat := by omega
                      simp [hxz, hzx]
                      exact ih h1 h2

lemma charListLt_connex {a b : List Char} (h1 : charListLt a b = false)
    (h2 : charListLt b a = false) : a = b := by
  induction a generalizing b with
  | nil =>
      cases b with
      | nil => rfl
      | cons y ys => simp [charListLt] at h1
  | cons x xs ih =>
      cases b with
      | nil => simp [charListLt] at h2
      | cons y ys =>
          simp only [charListLt] at h1 h2
          by_cases hxy : x.toNat < y.toNat
          · simp [hxy] at h1
          · by_cases hyx : y.toNat < x.toNat
            · simp [hyx] at h2
            · rw [if_neg hxy, if_neg hyx] at h1
              rw [if_neg hyx, if_neg hxy] at h2
              have hxy' : x.toNat = y.toNat := by omega
              have hx : x = y := by
                rw [← Char.ofNat_toNat x, ← Char.ofNat_toNat y, hxy']
              rw [hx, ih h1 h2]

instance : IsTotal String (fun a b => jsStrLe a b = true) := by
  constructor
  intro a b
  unfold jsStrLe
  by_cases h : charListLt b.data a.data = true
  · right
    simp only [Bool.not_eq_true']
    by_cases h2 : charListLt a.data b.data = true
    · have := charListLt_trans h h2
      rw [charListLt_irrefl] at this
      exact absurd this (by simp)
    · simpa using h2
  · left
    simp [Bool.not_eq_true] at h
    simp [h]

instance : IsTrans String (fun a b => jsStrLe a b = true) := by
  constructor
  intro a b c h1 h2
  unfold jsStrLe at h1 h2 ⊢
  simp only [Bool.not_eq_true'] at h1 h2 ⊢
  by_cases hca : charListLt c.data a.data = true
  · by_cases hab : charListLt a.data b.data = true
    · have := charListLt_trans hca hab
      rw [h2] at this
      exact absurd this (by simp)
    · have hab' : charListLt a.data b.data = false := by simpa using hab
      have : a.data = b.data := charListLt_connex hab' h1
      rw [this] at hca
      rw [hca] at h2
      exact absurd h2 (by simp)
  · simpa using hca

/-- The filter object. Only the `format` field matters to claim C7; the other
active filters are carried opaquely. `fetchAssets` drops empty-string values
when building the query (api.js lines 5-9), so deleting the `format` key
(`delete nextFilters.format`, api.js line 451) is modelled as setting it
to `""`. -/
structure Filters where
  format : String
  color : String
  rest : List (String × String)
deriving DecidableEq, Repr

/-- The per-asset step of `buildFormats` (api.js lines 435-440): `format`
must be a string, is trimmed, discarded if empty, and lowercased. -/
def canonicalFormat (a : Asset) : Option String :=
  match a.format with
  | none => none
  | some s =>
      if jsTrim s = "" then none else some (jsStrToLower (jsTrim s))

/-- One `data.forEach` step of `buildFormats` (api.js lines 435-440): a key
is added only when the map does not yet hold it (`if (!map.has(key))`). -/
def formatStep (acc : List String) (a : Asset) : List String :=
  match canonicalFormat a with
  | none => acc
  | some k => if k ∈ acc then acc else acc ++ [k]

/-- The map-based first-occurrence deduplication of `buildFormats`
(api.js lines 434-440): JS `Map` preserves insertion order. -/
def dedupFormats (data : List Asset) : List String :=
  data.foldl formatStep []

/-- `buildFormats` (api.js lines 433-442): distinct trimmed lowercase format
strings, sorted with `localeCompare`. -/
def buildFormats (data : List Asset) : List String :=
  List.insertionSort (fun a b => jsStrLe a b = true) (dedupFormats data)

/-- The `loadFormats` effect (api.js lines 443-458) as a pure function of
the filter state, the visible assets and the backend query: with no active
format filter the options come from the visible assets; with one, from a
re-query with the format filter removed. -/
def loadFormats (filters : Filters) (assets : List Asset)
    (fetch : Filters → List Asset) : List String :=
  if filters.format = "" then buildFormats assets
  else buildFormats (fetch { filters with format := "" })

lemma mem_foldl_formatStep (data : List Asset) (acc : List String) (s : String) :
    s ∈ data.foldl formatStep acc ↔ s ∈ acc ∨ ∃ a ∈ data, canonicalFormat a = some s := by
  induction data generalizing acc with
  | nil => simp
  | cons a as ih =>
      simp only [List.foldl_cons, ih]
      cases h : canonicalFormat a with
      | none =>
          simp only [formatStep, h]
          constructor
          · rintro (hs | hs)
            · exact Or.inl hs
            · exact Or.inr ⟨hs.choose, List.mem_cons_of_mem _ hs.choose_spec.1, hs.choose_spec.2⟩
          · rintro (hs | ⟨a', ha', hc⟩)
            · exact Or.inl hs
            · rcases List.mem_cons.mp ha' with rfl | ha'
              · rw [h] at hc
                exact absurd hc (by simp)
              · exact Or.inr ⟨a', ha', hc⟩
      | some k =>
          simp only [formatStep, h]
          by_cases hk : k ∈ acc
          · rw [if_pos hk]
            constructor
            · rintro (hs | hs)
              · exact Or.inl hs
              · exact Or.inr ⟨hs.choose, List.mem_cons_of_mem _ hs.choose_spec.1, hs.choose_spec.2⟩
            · rintro (hs | ⟨a', ha', hc⟩)
              · exact Or.inl hs
              · rcases List.mem_cons.mp ha' with rfl | ha'
                · rw [h] at hc
                  injection hc with hc
                  subst hc
                  exact Or.inl hk
                · exact Or.inr ⟨a', ha', hc⟩
          · rw [if_neg hk]
            constructor
            · rintro (hs | hs)
              · rcases List.mem_append.mp hs with hs | hs
                · exact Or.inl hs
                · refine Or.inr ⟨a, List.mem_cons_self a as, ?_⟩
                  rw [h, List.mem_singleton.mp hs]
              · exact Or.inr ⟨hs.choose, List.mem_cons_of_mem _ hs.choose_spec.1, hs.choose_spec.2⟩
            · rintro (hs | ⟨a', ha', hc⟩)
              · exact Or.inl (List.mem_append_left _ hs)
              · rcases List.mem_cons.mp ha' with rfl | ha'
                · rw [h] at hc
                  injection hc with hc
                  exact Or.inl (List.mem_append_right _ (by simp [hc]))
                · exact Or.inr ⟨a', ha', hc⟩

lemma nodup_foldl_formatStep (data : List Asset) (acc : List String)
    (h : acc.Nodup) : (data.foldl formatStep acc).Nodup := by
  induction data generalizing acc with
  | nil => simpa
  | cons a as ih =>
      simp only [List.foldl_cons]
      apply ih
      unfold formatStep
      cases hc : canonicalFormat a with
      | none => exact h
      | some k =>
          show (if k ∈ acc then acc else acc ++ [k]).Nodup
          by_cases hk : k ∈ acc
          · rw [if_pos hk]
            exact h
          · rw [if_neg hk]
            simp [List.nodup_append, h, hk]

/-- Claim C7: with an active format filter, the format options are computed
from the collection re-queried with all active filters except the format
filter itself; with no active format filter, from the currently visible
assets; and in both cases `buildFormats` yields exactly the distinct trimmed
lowercase format strings, deduplicated and sorted in (strictly increasing)
lexicographic order. -/
theorem C7_theorem (filters : Filters) (assets : List Asset)
    (fetch : Filters → List Asset) :
    (filters.format ≠ "" →
      loadFormats filters assets fetch = buildFormats (fetch { filters with format := "" })) ∧
    (filters.format = "" → loadFormats filters assets fetch = buildFormats assets) ∧
    (∀ data : List Asset,
      List.Sorted (fun a b => jsStrLt a b = true) (buildFormats data) ∧
      ∀ s, s ∈ buildFormats data ↔ ∃ a ∈ data, canonicalFormat a = some s) := by
  refine ⟨fun h => by simp [loadFormats, h], fun h => by simp [loadFormats, h],
    fun data => ⟨?_, ?_⟩⟩
  · have hs : List.Sorted (fun a b => jsStrLe a b = true) (buildFormats data) :=
      List.sorted_insertionSort _ _
    have hn : (buildFormats data).Nodup :=
      ((List.perm_insertionSort _ _).nodup_iff).mpr (nodup_foldl_formatStep data [] (by simp))
    refine (hs.and hn).imp ?_
    rintro a b ⟨hle, hne⟩
    unfold jsStrLe at hle
    unfold jsStrLt
    simp only [Bool.not_eq_true'] at hle
    by_cases h2 : charListLt a.data b.data = true
    · exact h2
    · have hd := charListLt_connex (by simpa using h2) hle
      have hab : a = b := by
        cases a with
        | mk la =>
            cases b with
            | mk lb =>
                simp only at hd
                rw [hd]
      exact absurd hab hne
  · intro s
    rw [buildFormats, List.mem_insertionSort, dedupFormats, mem_foldl_formatStep]
    simp

/-- Claim C7 witness: concrete runs of both branches of `loadFormats`
through `C7_theorem`. -/
theorem C7_witness :
    loadFormats ⟨"png", "", []⟩ []
      (fun _ => [⟨1, "x", some " JPG ", []⟩, ⟨2, "y", some "png", []⟩,
        ⟨3, "z", none, []⟩, ⟨4, "w", some "  ", []⟩]) = ["jpg", "png"] ∧
    loadFormats ⟨"", "", []⟩ [⟨5, "v", some "GIF", []⟩] (fun _ => []) = ["gif"] := by
  constructor
  · have h := C7_theorem ⟨"png", "", []⟩ []
      (fun _ => [⟨1, "x", some " JPG ", []⟩, ⟨2, "y", some "png", []⟩,
        ⟨3, "z", none, []⟩, ⟨4, "w", some "  ", []⟩])
    rw [h.1 (by decide)]
    decide
  · have h := C7_theorem ⟨"", "", []⟩ [⟨5, "v", some "GIF", []⟩] (fun _ => [])
    rw [h.2.1 rfl]
    decide

/-! ## Duplicate detection (api.js lines 701-746, claim C4) -/

/-- A candidate upload file: name, declared byte size, and the
`relativePath` attached by the directory collector (`""` = absent). -/
structure UFile where
  name : String
  size : Nat
  relativePath : String
deriving DecidableEq, Repr

/-- The `hasNestedPath` test (api.js line 707):
`files.some((file) => file.relativePath && file.relativePath.includes("/"))`.
JS truthiness of a string is non-emptiness; `includes("/")` on a one-character
pattern is character membership. -/
def hasNestedPath (files : List UFile) : Bool :=
  files.any (fun f => !(f.relativePath == "") && f.relativePath.data.contains '/')

/-- One step of building the case-insensitive index of existing filenames
(api.js lines 711-717); only key membership matters to claim C4, so the
grouped asset lists are not carried. -/
def keyStep (acc : List String) (a : Asset) : List String :=
  if jsStrToLower a.filename = "" then acc
  else if jsStrToLower a.filename ∈ acc then acc
  else acc ++ [jsStrToLower a.filename]

/-- Keys of the `existingByName` map (api.js lines 711-717), in insertion
order. -/
def existingKeys (existing : List Asset) : List String :=
  existing.foldl keyStep []

/-- First-occurrence deduplication, the JS `Array.from(new Set(...))` of
api.js lines 718-724 (JS `Set` preserves insertion order). -/
def dedupStrings (l : List String) : List String :=
  l.foldl (fun acc n => if n ∈ acc then acc else acc ++ [n]) []

/-- The lowercased candidate names that collide with the existing index
(api.js lines 718-724), before deduplication. -/
def dupNamesRaw (existing : List Asset) (files : List UFile) : List String :=
  (files.map (fun f => jsStrToLower f.name)).filter
    (fun n => !(n == "") && n ∈ existingKeys existing)

/-- JS `array.join(", ")` (api.js line 726). -/
def joinComma : List String → String
  | [] => ""
  | [x] => x
  | x :: xs => x ++ ", " ++ joinComma xs

/-- The duplicate check of `handleUploadFiles` (api.js lines 707-730) as a
pure decision: `none` = no prompt (check bypassed or no collision), `some
(count, sample)` = the prompt opens with that duplicate count and sample. -/
def duplicatePrompt (existing : List Asset) (files : List UFile) :
    Option (Nat × String) :=
  if hasNestedPath files then none
  else
    let d := dedupStrings (dupNamesRaw existing files)
    if d.isEmpty then none
    else some (d.length, joinComma (d.take 5))

lemma mem_foldl_keyStep (data : List Asset) (acc : List String) (n : String) :
    n ∈ data.foldl keyStep acc ↔
      n ∈ acc ∨ (n ≠ "" ∧ ∃ a ∈ data, jsStrToLower a.filename = n) := by
  induction data generalizing acc with
  | nil => simp
  | cons a as ih =>
      simp only [List.foldl_cons, ih]
      unfold keyStep
      by_cases h0 : jsStrToLower a.filename = ""
      · rw [if_pos h0]
        constructor
        · rintro (hs | hs)
          · exact Or.inl hs
          · exact Or.inr ⟨hs.1, hs.2.choose, List.mem_cons_of_mem _ hs.2.choose_spec.1,
              hs.2.choose_spec.2⟩
        · rintro (hs | ⟨hne, a', ha', hc⟩)
          · exact Or.inl hs
          · rcases List.mem_cons.mp ha' with rfl | ha'
            · rw [h0] at hc
              exact absurd hc.symm hne
            · exact Or.inr ⟨hne, a', ha', hc⟩
      · rw [if_neg h0]
        by_cases hk : jsStrToLower a.filename ∈ acc
        · rw [if_pos hk]
          constructor
          · rintro (hs | hs)
            · exact Or.inl hs
            · exact Or.inr ⟨hs.1, hs.2.choose, List.mem_cons_of_mem _ hs.2.choose_spec.1,
                hs.2.choose_spec.2⟩
          · rintro (hs | ⟨hne, a', ha', hc⟩)
            · exact Or.inl hs
            · rcases List.mem_cons.mp ha' with rfl | ha'
              · rw [hc] at hk
                exact Or.inl hk
              · exact Or.inr ⟨hne, a', ha', hc⟩
        · rw [if_neg hk]
          constructor
          · rintro (hs | hs)
            · rcases List.mem_append.mp hs with hs | hs
              · exact Or.inl hs
              · rw [List.mem_singleton.mp hs]
                exact Or.inr ⟨h0, a, List.mem_cons_self a as, rfl⟩
            · exact Or.inr ⟨hs.1, hs.2.choose, List.mem_cons_of_mem _ hs.2.choose_spec.1,
                hs.2.choose_spec.2⟩
          · rintro (hs | ⟨hne, a', ha', hc⟩)
            · exact Or.inl (List.mem_append_left _ hs)
            · rcases List.mem_cons.mp ha' with rfl | ha'
              · exact Or.inl (List.mem_append_right _ (by simp [hc]))
              · exact Or.inr ⟨hne, a', ha', hc⟩

lemma mem_existingKeys (existing : List Asset) (n : String) :
    n ∈ existingKeys existing ↔
      n ≠ "" ∧ ∃ a ∈ existing, jsStrToLower a.filename = n := by
  rw [existingKeys, mem_foldl_keyStep]
  simp

lemma mem_dedupStrings (l : List String) (n : String) :
    n ∈ dedupStrings l ↔ n ∈ l := by
  unfold dedupStrings
  suffices H : ∀ acc, n ∈ l.foldl (fun acc n => if n ∈ acc then acc else acc ++ [n]) acc ↔
      n ∈ acc ∨ n ∈ l by
    simpa using H []
  induction l with
  | nil => simp
  | cons x xs ih =>
      intro acc
      simp only [List.foldl_cons, ih]
      by_cases hx : x ∈ acc
      · rw [if_pos hx]
        constructor
        · rintro (hs | hs)
          · exact Or.inl hs
          · exact Or.inr (List.mem_cons_of_mem _ hs)
        · rintro (hs | hs)
          · exact Or.inl hs
          · rcases List.mem_cons.mp hs with rfl | hs
            · exact Or.inl hx
            · exact Or.inr hs
      · rw [if_neg hx]
        constructor
        · rintro (hs | hs)
          · rcases List.mem_append.mp hs with hs | hs
            · exact Or.inl hs
            · rw [List.mem_singleton.mp hs]
              exact Or.inr (List.mem_cons_self x xs)
          · exact Or.inr (List.mem_cons_of_mem _ hs)
        · rintro (hs | hs)
          · exact Or.inl (List.mem_append_left _ hs)
          · rcases List.mem_cons.mp hs with rfl | hs
            · exact Or.inl (List.mem_append_right _ (by simp))
            · exact Or.inr hs

/-- Claim C4, counterexample. A candidate file whose name is empty matches an
existing asset whose filename is empty (they are equal, hence equal
case-insensitively), there is no nested relative path, and yet no duplicate
prompt is triggered: both sides are deliberately filtered out by the source
(`if (!name) return` / `.filter((name) => name && ...)`). -/
theorem C4_counterexample :
    hasNestedPath [⟨"", 5, ""⟩] = false ∧
    jsStrToLower ((⟨"", 5, ""⟩ : UFile)).name =
      jsStrToLower ((⟨7, "", none, []⟩ : Asset)).filename ∧
    duplicatePrompt [⟨7, "", none, []⟩] [⟨"", 5, ""⟩] = none := by
  decide

/-- Claim C4 as amended: if any candidate carries a relativePath containing a
path separator the duplicate check is bypassed entirely; otherwise, if at
least one candidate with *non-empty* filename matches (case-insensitively) a
*non-empty* existing filename in the target folder, the prompt is always
triggered, reporting the number of distinct colliding (lowercased) names and
the first 5 of them joined with `", "`. -/
theorem C4_theorem (existing : List Asset) (files : List UFile) :
    ((∃ f ∈ files, f.relativePath ≠ "" ∧ '/' ∈ f.relativePath.data) →
      duplicatePrompt existing files = none) ∧
    (hasNestedPath files = false →
      (∃ f ∈ files, jsStrToLower f.name ≠ "" ∧
        ∃ a ∈ existing, jsStrToLower a.filename = jsStrToLower f.name) →
      duplicatePrompt existing files =
        some ((dedupStrings (dupNamesRaw existing files)).length,
          joinComma ((dedupStrings (dupNamesRaw existing files)).take 5)) ∧
      1 ≤ (dedupStrings (dupNamesRaw existing files)).length) := by
  constructor
  · rintro ⟨f, hf, hne, hsep⟩
    have h : hasNestedPath files = true := by
      rw [hasNestedPath, List.any_eq_true]
      refine ⟨f, hf, ?_⟩
      simp only [Bool.and_eq_true, Bool.not_eq_true', beq_eq_false_iff_ne, ne_eq]
      exact ⟨hne, List.elem_eq_true_of_mem hsep⟩
    simp [duplicatePrompt, h]
  · rintro hflat ⟨f, hf, hne, a, ha, hmatch⟩
    have hmem : jsStrToLower f.name ∈ dedupStrings (dupNamesRaw existing files) := by
      rw [mem_dedupStrings, dupNamesRaw, List.mem_filter]
      refine ⟨List.mem_map_of_mem _ hf, ?_⟩
      have hkey : jsStrToLower f.name ∈ existingKeys existing :=
        (mem_existingKeys existing _).mpr ⟨hne, a, ha, hmatch⟩
      simp [hne, hkey]
    have hnonempty : (dedupStrings (dupNamesRaw existing files)).isEmpty = false := by
      have hnil := List.ne_nil_of_mem hmem
      cases hd : dedupStrings (dupNamesRaw existing files) with
      | nil => exact absurd hd hnil
      | cons x xs => rfl
    constructor
    · rw [duplicatePrompt, if_neg (by simp [hflat])]
      simp only [hnonempty, Bool.false_eq_true, if_false]
    · have := List.length_pos_of_mem hmem
      omega

/-- Claim C4 witness: concrete applications of both parts of `C4_theorem`. -/
theorem C4_witness :
    duplicatePrompt [⟨1, "A.JPG", none, []⟩] [⟨"a.jpg", 1, "dir/a.jpg"⟩] = none ∧
    (duplicatePrompt [⟨1, "A.JPG", none, []⟩, ⟨2, "b.png", none, []⟩]
        [⟨"a.jpg", 1, ""⟩, ⟨"c.gif", 2, ""⟩] =
      some ((dedupStrings (dupNamesRaw [⟨1, "A.JPG", none, []⟩, ⟨2, "b.png", none, []⟩]
          [⟨"a.jpg", 1, ""⟩, ⟨"c.gif", 2, ""⟩])).length,
        joinComma ((dedupStrings (dupNamesRaw [⟨1, "A.JPG", none, []⟩, ⟨2, "b.png", none, []⟩]
          [⟨"a.jpg", 1, ""⟩, ⟨"c.gif", 2, ""⟩])).take 5)) ∧
      1 ≤ (dedupStrings (dupNamesRaw [⟨1, "A.JPG", none, []⟩, ⟨2, "b.png", none, []⟩]
          [⟨"a.jpg", 1, ""⟩, ⟨"c.gif", 2, ""⟩])).length) := by
  exact ⟨(C4_theorem [⟨1, "A.JPG", none, []⟩] [⟨"a.jpg", 1, "dir/a.jpg"⟩]).1 (by decide),
    (C4_theorem [⟨1, "A.JPG", none, []⟩, ⟨2, "b.png", none, []⟩]
      [⟨"a.jpg", 1, ""⟩, ⟨"c.gif", 2, ""⟩]).2 (by decide) (by decide)⟩

/-! ## Directory traversal (api.js lines 209-239, claims C6 and C8) -/

/-- A drag-drop entry: a leaf file (with `readable = false` when
`entry.file(resolve, reject)` would reject) or a directory whose
`createReader().readEntries` calls return the given batches in order (the
platform returns `[]` once the listed batches are exhausted). -/
inductive Entry where
  | fileEnt (name : String) (readable : Bool)
  | dirEnt (name : String) (batches : List (List Entry))

/-- A collected file descriptor: name plus the `relativePath` set by the
traversal (`""` = the property was never set). -/
structure JFile where
  name : String
  relativePath : String
deriving DecidableEq, Repr

/-- `readAllEntries` (api.js lines 209-218): keep calling `readEntries`,
appending each batch, and break on the first empty batch. -/
def readAllEntries : List (List Entry) → List Entry
  | [] => []
  | b :: rest => if b.isEmpty then [] else b ++ readAllEntries rest

lemma sizeOf_list_append (l1 l2 : List Entry) :
    sizeOf (l1 ++ l2) + 1 = sizeOf l1 + sizeOf l2 := by
  induction l1 with
  | nil => simp; omega
  | cons e es ih => simp [List.cons.sizeOf_spec]; omega

lemma sizeOf_readAllEntries (bs : List (List Entry)) :
    sizeOf (readAllEntries bs) ≤ sizeOf bs := by
  induction bs with
  | nil => simp [readAllEntries]
  | cons b rest ih =>
      rw [readAllEntries]
      by_cases hb : b.isEmpty
      · rw [if_pos hb]
        simp [List.cons.sizeOf_spec]
        omega
      · rw [if_neg hb]
        have h := sizeOf_list_append b (readAllEntries rest)
        simp only [List.cons.sizeOf_spec]
        omega

/-- `traverseEntry` (api.js lines 220-239), written as a single recursion
over a list of sibling entries (the `for (const child of entries)` loop):
a readable file contributes a descriptor whose `relativePath` is
`prefix + name` when the prefix is non-empty; an unreadable file rejects
(`Except.error`), aborting the whole traversal exactly as the unhandled
promise rejection does; a directory recurses into `readAllEntries` of its
reader with the prefix extended by `name + "/"`. -/
def traverseList : List Entry → String → Except String (List JFile)
  | [], _ => .ok []
  | Entry.fileEnt name ok :: rest, pre =>
      if ok then
        match traverseList rest pre with
        | .error e => .error e
        | .ok tail => .ok (⟨name, if pre = "" then "" else pre ++ name⟩ :: tail)
      else .error name
  | Entry.dirEnt name batches :: rest, pre =>
      match traverseList (readAllEntries batches) (pre ++ name ++ "/") with
      | .error e => .error e
      | .ok sub =>
          match traverseList rest pre with
          | .error e => .error e
          | .ok tail => .ok (sub ++ tail)
termination_by l _ => sizeOf l
decreasing_by
  all_goals try have h := sizeOf_readAllEntries batches
  all_goals simp [List.cons.sizeOf_spec, Entry.dirEnt.sizeOf_spec]
  all_goals omega

/-- `traverseEntry` on one entry (api.js line 220). -/
def traverseEntry (e : Entry) (pre : String) : Except String (List JFile) :=
  traverseList [e] pre

/-- The spec's pagination contract: the accumulated non-empty batches, up to
(excluding) the first empty one. -/
def nonEmptyBatches (bs : List (List Entry)) : List (List Entry) :=
  bs.takeWhile (fun b => !b.isEmpty)

/-- Whether every file reached by the traversal of these sibling entries is
readable. -/
def allOkList : List Entry → Bool
  | [] => true
  | Entry.fileEnt _ ok :: rest => ok && allOkList rest
  | Entry.dirEnt _ batches :: rest =>
      allOkList (readAllEntries batches) && allOkList rest
termination_by l => sizeOf l
decreasing_by
  all_goals try have h := sizeOf_readAllEntries batches
  all_goals simp [List.cons.sizeOf_spec, Entry.dirEnt.sizeOf_spec]
  all_goals omega

/-- Whether every file reached by the traversal of this entry is readable. -/
def allOk (e : Entry) : Bool := allOkList [e]

/-- Modelled from the spec's words (§4.1): the depth-first sequence of leaf
descriptors, where each directory contributes the concatenation of its
non-empty batches up to the first empty batch, and each leaf reached under a
non-empty accumulated prefix of `"parentDir/"` segments carries
`relativePath = prefix + name`. -/
def specCollect : Entry → String → List JFile
  | Entry.fileEnt name _, pre => [⟨name, if pre = "" then "" else pre ++ name⟩]
  | Entry.dirEnt name batches, pre =>
      ((nonEmptyBatches batches).flatten.attach.map
        (fun c => specCollect c.1 (pre ++ name ++ "/"))).flatten
termination_by e _ => sizeOf e
decreasing_by
  obtain ⟨b, hb, hcb⟩ := List.mem_flatten.mp c.2
  have h1 : sizeOf c.1 < sizeOf b := List.sizeOf_lt_of_mem hcb
  have h2 : sizeOf b < sizeOf batches :=
    List.sizeOf_lt_of_mem ((List.takeWhile_sublist _).subset hb)
  simp [Entry.dirEnt.sizeOf_spec]
  omega

lemma specCollect_dir (name : String) (batches : List (List Entry)) (pre : String) :
    specCollect (Entry.dirEnt name batches) pre =
      ((nonEmptyBatches batches).flatten.map
        (fun c => specCollect c (pre ++ name ++ "/"))).flatten := by
  rw [specCollect]
  congr 1
  exact List.attach_map_val ((nonEmptyBatches batches).flatten)
    (fun c => specCollect c (pre ++ name ++ "/"))

lemma readAllEntries_eq_flatten (bs : List (List Entry)) :
    readAllEntries bs = (nonEmptyBatches bs).flatten := by
  induction bs with
  | nil => rfl
  | cons b rest ih =>
      rw [readAllEntries, nonEmptyBatches]
      by_cases hb : b.isEmpty
      · rw [if_pos hb]
        simp [List.takeWhile_cons, hb]
      · rw [if_neg hb]
        simp only [List.takeWhile_cons, hb, Bool.not_false, if_true, List.flatten_cons]
        rw [ih, nonEmptyBatches]

lemma traverseList_ok (n : Nat) : ∀ (l : List Entry) (pre : String), sizeOf l ≤ n →
    allOkList l = true →
    traverseList l pre = .ok ((l.map (fun e => specCollect e pre)).flatten) := by
  induction n with
  | zero =>
      intro l pre hs _
      cases l with
      | nil => simp [traverseList]
      | cons e rest =>
          simp only [List.cons.sizeOf_spec] at hs
          omega
  | succ n ih =>
      intro l pre hs hok
      match l with
      | [] => simp [traverseList]
      | Entry.fileEnt name ok :: rest =>
          rw [allOkList, Bool.and_eq_true] at hok
          have hrest := ih rest pre
            (by simp only [List.cons.sizeOf_spec] at hs; omega) hok.2
          rw [traverseList, if_pos hok.1, hrest]
          simp [specCollect]
      | Entry.dirEnt name batches :: rest =>
          rw [allOkList, Bool.and_eq_true] at hok
          have hbs : sizeOf (readAllEntries batches) ≤ n := by
            have h1 := sizeOf_readAllEntries batches
            simp only [List.cons.sizeOf_spec, Entry.dirEnt.sizeOf_spec] at hs
            omega
          have hsub := ih (readAllEntries batches) (pre ++ name ++ "/") hbs hok.1
          have hrest := ih rest pre
            (by simp only [List.cons.sizeOf_spec] at hs; omega) hok.2
          rw [traverseList, hsub, hrest]
          simp only [List.map_cons, List.flatten_cons, specCollect_dir,
            readAllEntries_eq_flatten]

/-- Claim C6: the collector accumulates exactly the non-empty batches up to
the first empty batch; and on an all-readable entry the traversal returns
precisely the spec's depth-first leaf sequence (`specCollect`), in which a
leaf reached under a non-empty accumulated prefix of `parentDir/` segments
carries `relativePath = prefix + name`. -/
theorem C6_theorem :
    (∀ bs : List (List Entry), readAllEntries bs = (nonEmptyBatches bs).flatten) ∧
    (∀ (name : String) (pre : String), pre ≠ "" →
      specCollect (Entry.fileEnt name true) pre = [⟨name, pre ++ name⟩]) ∧
    (∀ (e : Entry) (pre : String), allOk e = true →
      traverseEntry e pre = .ok (specCollect e pre)) := by
  refine ⟨readAllEntries_eq_flatten, ?_, ?_⟩
  · intro name pre hpre
    simp [specCollect, hpre]
  · intro e pre h
    rw [allOk] at h
    have := traverseList_ok (sizeOf [e]) [e] pre le_rfl h
    rw [traverseEntry, this]
    simp

/-- Claim C6 witness: a concrete paginated directory tree collected through
`C6_theorem`. -/
theorem C6_witness :
    readAllEntries [[Entry.fileEnt "a" true], [], [Entry.fileEnt "dropped" true]] =
      [Entry.fileEnt "a" true] ∧
    traverseEntry (Entry.dirEnt "root" [[Entry.fileEnt "a" true,
        Entry.dirEnt "sub" [[Entry.fileEnt "b" true], []], Entry.fileEnt "c" true], [],
        [Entry.fileEnt "dropped" true]]) "" =
      .ok [⟨"a", "root/a"⟩, ⟨"b", "root/sub/b"⟩, ⟨"c", "root/c"⟩] := by
  constructor
  · rw [C6_theorem.1]
    simp [nonEmptyBatches]
  · rw [C6_theorem.2.2 _ "" (by simp [allOk, allOkList, readAllEntries])]
    simp [specCollect_dir, specCollect, nonEmptyBatches]

/-- Claim C8, counterexample. An unreadable file entry is *not* skipped:
`entry.file(resolve, reject)` rejects, no caller catches, and the whole
collection fails — the readable siblings' descriptors are not produced. -/
theorem C8_counterexample :
    traverseList [Entry.fileEnt "good" true, Entry.fileEnt "bad" false,
      Entry.fileEnt "good2" true] "" = .error "bad" ∧
    traverseList [Entry.fileEnt "good" true, Entry.fileEnt "bad" false,
      Entry.fileEnt "good2" true] "" ≠
      .ok [⟨"good", ""⟩, ⟨"good2", ""⟩] := by
  have h : traverseList [Entry.fileEnt "good" true, Entry.fileEnt "bad" false,
      Entry.fileEnt "good2" true] "" = .error "bad" := by
    simp [traverseList]
  exact ⟨h, by simp [h]⟩

/-- Claim C8 as amended: an unreadable file entry is not skipped; the first
unreadable file reached (after any all-readable entries) rejects the whole
traversal with its error, and no descriptor list is produced. (A directory
whose child read fails is not even representable as a rejection: the source
passes no error callback to `readEntries`, so that promise never settles.) -/
theorem C8_theorem (n : Nat) : ∀ (l1 l2 : List Entry) (name : String) (pre : String),
    sizeOf l1 ≤ n → allOkList l1 = true →
    traverseList (l1 ++ Entry.fileEnt name false :: l2) pre = .error name := by
  induction n with
  | zero =>
      intro l1 l2 name pre hs _
      cases l1 with
      | nil => rw [List.nil_append, traverseList, if_neg (by simp)]
      | cons e rest =>
          simp only [List.cons.sizeOf_spec] at hs
          omega
  | succ n ih =>
      intro l1 l2 name pre hs hok
      match l1 with
      | [] => rw [List.nil_append, traverseList, if_neg (by simp)]
      | Entry.fileEnt nm ok :: rest =>
          rw [allOkList, Bool.and_eq_true] at hok
          have hrest := ih rest l2 name pre
            (by simp only [List.cons.sizeOf_spec] at hs; omega) hok.2
          rw [List.cons_append, traverseList, if_pos hok.1, hrest]
      | Entry.dirEnt nm batches :: rest =>
          rw [allOkList, Bool.and_eq_true] at hok
          have hbs : sizeOf (readAllEntries batches) ≤ n := by
            have h1 := sizeOf_readAllEntries batches
            simp only [List.cons.sizeOf_spec, Entry.dirEnt.sizeOf_spec] at hs
            omega
          have hsub := traverseList_ok n (readAllEntries batches) (pre ++ nm ++ "/")
            hbs hok.1
          have hrest := ih rest l2 name pre
            (by simp only [List.cons.sizeOf_spec] at hs; omega) hok.2
          rw [List.cons_append, traverseList, hsub, hrest]

/-- Claim C8 witness: `C8_theorem` at a concrete payload — one readable
directory, then an unreadable file, then a readable file. -/
theorem C8_witness :
    traverseList ([Entry.dirEnt "d" [[Entry.fileEnt "x" true], []]] ++
      Entry.fileEnt "bad" false :: [Entry.fileEnt "y" true]) "" = .error "bad" := by
  exact C8_theorem (sizeOf [Entry.dirEnt "d" [[Entry.fileEnt "x" true], []]])
    [Entry.dirEnt "d" [[Entry.fileEnt "x" true], []]] [Entry.fileEnt "y" true]
    "bad" "" le_rfl (by simp [allOkList, readAllEntries])

/-! ## Upload scheduler (api.js lines 747-796, claims C2, C3, C5, C9)

The spec's cooperative single-threaded execution model (§5) is embedded as a
small-step transition system: each label is one atomic (non-suspending)
piece of JS between suspension points, and a run is any interleaving of the
three workers' steps chosen by the event loop. -/

/-- Status of one worker in `handleUploadFiles` (api.js lines 781-789):
back at the `while` condition (`idle`), awaiting `uploadOne` for the file at
`idx` (`uploading idx`), or returned (`done`). -/
inductive WStatus where
  | idle
  | uploading (idx : Nat)
  | done
deriving DecidableEq, Repr

/-- Shared batch state of one upload run: the file list, the shared cursor,
the three workers, the per-file `lastLoaded` values (the local variable of
each `uploadOne` call; `0` before the file is claimed), `uploadedBytes`, the
`uploadErrors` list, the sequence of percent values reported to
`setUploadProgress`, and the log of claimed file indices (in claim order). -/
structure SchedState where
  files : List UFile
  cursor : Nat
  workers : List WStatus
  lastLoaded : Nat → Int
  uploadedBytes : Int
  errors : List String
  reports : List Int
  claims : List Nat

/-- One event-loop step: a worker claiming the next file (the synchronous
lines 782-785: read cursor, record index, increment — no suspension point
in between, hence a single atomic label), a worker observing cursor
exhaustion and returning, a progress event for a worker's in-flight file,
or that transfer settling with success or failure. -/
inductive SchedStep where
  | claim (w : Nat)
  | exitLoop (w : Nat)
  | progress (w : Nat) (computable : Bool) (loaded : Int)
  | finishOk (w : Nat)
  | finishErr (w : Nat) (msg : String) (viaCallback : Bool)

/-- `totalBytes` (api.js line 749):
`files.reduce((sum, file) => sum + (file.size || 0), 0) || 1`. -/
def totalBytesOf (files : List UFile) : Int :=
  if (files.map (fun f => (f.size : Int))).sum = 0 then 1
  else (files.map (fun f => (f.size : Int))).sum

/-- The semantics of one step: `none` means the label is not enabled in this
state. `claim` is api.js lines 782-785; `exitLoop` the failing `while`
condition; `progress` the `onprogress` callback (lines 765-772, ignoring
events with `lengthComputable` false, adding the delta against the file's
`lastLoaded`, and reporting `Math.min(100, Math.round((uploadedBytes /
totalBytes) * 100))`); `finishOk` a resolved upload; `finishErr` a rejected
upload (lines 773-779): the error string `name + ": " + message` is appended
once by the `catch`, and a second time first when the rejection came from the
XHR error path, whose `onError` callback (api.js lines 49-59) also appends. -/
def applyStep (s : SchedState) : SchedStep → Option SchedState
  | SchedStep.claim w =>
      match s.workers[w]? with
      | some WStatus.idle =>
          if s.cursor < s.files.length then
            some { s with
              workers := s.workers.set w (WStatus.uploading s.cursor),
              cursor := s.cursor + 1,
              claims := s.claims ++ [s.cursor],
              lastLoaded := fun i => if i = s.cursor then 0 else s.lastLoaded i }
          else none
      | _ => none
  | SchedStep.exitLoop w =>
      match s.workers[w]? with
      | some WStatus.idle =>
          if s.cursor < s.files.length then none
          else some { s with workers := s.workers.set w WStatus.done }
      | _ => none
  | SchedStep.progress w c v =>
      match s.workers[w]? with
      | some (WStatus.uploading idx) =>
          if c then
            some { s with
              uploadedBytes := s.uploadedBytes + (v - s.lastLoaded idx),
              lastLoaded := fun i => if i = idx then v else s.lastLoaded i,
              reports := s.reports ++
                [min 100 (jsRound (100 * (s.uploadedBytes + (v - s.lastLoaded idx)))
                  (totalBytesOf s.files))] }
          else some s
      | _ => none
  | SchedStep.finishOk w =>
      match s.workers[w]? with
      | some (WStatus.uploading _) =>
          some { s with workers := s.workers.set w WStatus.idle }
      | _ => none
  | SchedStep.finishErr w msg cb =>
      match s.workers[w]? with
      | some (WStatus.uploading idx) =>
          some { s with
            workers := s.workers.set w WStatus.idle,
            errors := s.errors ++
              (if cb then
                [(match s.files[idx]? with
                  | some f => f.name
                  | none => "") ++ ": " ++ msg,
                 (match s.files[idx]? with
                  | some f => f.name
                  | none => "") ++ ": " ++ msg]
              else
                [(match s.files[idx]? with
                  | some f => f.name
                  | none => "") ++ ": " ++ msg]) }
      | _ => none

/-- Initial state of a run (api.js lines 749-754, 781): cursor 0, the
`concurrency = 3` workers about to test the loop condition, nothing loaded,
no errors. -/
def initState (files : List UFile) : SchedState :=
  { files := files, cursor := 0,
    workers := [WStatus.idle, WStatus.idle, WStatus.idle],
    lastLoaded := fun _ => 0, uploadedBytes := 0,
    errors := [], reports := [], claims := [] }

/-- Run a sequence of scheduler steps; `none` when some step is not enabled. -/
def validRun : SchedState → List SchedStep → Option SchedState
  | s, [] => some s
  | s, l :: ls =>
      match applyStep s l with
      | some s' => validRun s' ls
      | none => none

/-- The transport contract for one step (spec §5): a computable progress
event for an in-flight file reports `0 ≤ loaded ≤` that file's size. -/
def stepTransportOk (s : SchedState) : SchedStep → Bool
  | SchedStep.progress w c v =>
      if c then
        match s.workers[w]? with
        | some (WStatus.uploading idx) =>
            match s.files[idx]? with
            | some f => decide (0 ≤ v ∧ v ≤ (f.size : Int))
            | none => false
        | _ => false
      else true
  | _ => true

/-- The transport contract along a run. -/
def transportOk : SchedState → List SchedStep → Bool
  | _, [] => true
  | s, l :: ls =>
      stepTransportOk s l &&
      (match applyStep s l with
       | some s' => transportOk s' ls
       | none => true)

/-- Sum of the per-file `lastLoaded` values over the batch. -/
def sumLoaded (s : SchedState) : Int :=
  ((List.range s.files.length).map s.lastLoaded).sum

/-- Number of in-flight transfers. -/
def inFlight (s : SchedState) : Nat :=
  (s.workers.filter (fun st => match st with
    | WStatus.uploading _ => true
    | _ => false)).length

/-- All workers have returned: the run has settled. -/
def allDone (s : SchedState) : Bool :=
  s.workers.all (fun st => st == WStatus.done)

/-- The run invariant (claims C2/C3/C5/C9): the file list is fixed, there
are three workers, the cursor never passes the batch length, the claim log
is exactly `0, 1, ..., cursor-1`, a worker returns only once the cursor is
exhausted, in-flight indices were claimed, unclaimed slots have no reported
bytes, and `uploadedBytes` is the sum of the per-file `lastLoaded` values. -/
def Inv (files : List UFile) (s : SchedState) : Prop :=
  s.files = files ∧
  s.workers.length = 3 ∧
  s.cursor ≤ files.length ∧
  s.claims = List.range s.cursor ∧
  (∀ st ∈ s.workers, st = WStatus.done → s.cursor = files.length) ∧
  (∀ (w idx : Nat), s.workers[w]? = some (WStatus.uploading idx) → idx < s.cursor) ∧
  (∀ i, s.cursor ≤ i → s.lastLoaded i = 0) ∧
  s.uploadedBytes = sumLoaded s

/-- Per-file byte bounds, maintained by the transport contract. -/
def LoadedBounds (s : SchedState) : Prop :=
  ∀ i, 0 ≤ s.lastLoaded i ∧
    ∀ f, s.files[i]? = some f → s.lastLoaded i ≤ (f.size : Int)

lemma sum_map_range_update (len : Nat) (f : Nat → Int) (idx : Nat) (v : Int)
    (h : idx < len) :
    ((List.range len).map (fun i => if i = idx then v else f i)).sum =
    ((List.range len).map f).sum + (v - f idx) := by
  induction len with
  | zero => omega
  | succ n ih =>
      rw [List.range_succ, List.map_append, List.map_append, List.sum_append,
        List.sum_append]
      simp only [List.map_cons, List.map_nil, List.sum_cons, List.sum_nil]
      by_cases hin : idx = n
      · subst hin
        have hmap : (List.range idx).map (fun i => if i = idx then v else f i) =
            (List.range idx).map f :=
          List.map_congr_left (fun a ha => by
            have hlt : a < idx := List.mem_range.mp ha
            simp [Nat.ne_of_lt hlt])
        rw [hmap]
        simp
      · have hlt : idx < n := by omega
        rw [ih hlt, if_neg (show ¬ n = idx by omega)]
        ring

lemma sumLoaded_congr {s s' : SchedState} (hf : s'.files = s.files)
    (hl : ∀ i, i < s.files.length → s'.lastLoaded i = s.lastLoaded i) :
    sumLoaded s' = sumLoaded s := by
  unfold sumLoaded
  rw [hf]
  exact congrArg List.sum
    (List.map_congr_left (fun i hi => hl i (List.mem_range.mp hi)))

lemma inv_initState (files : List UFile) : Inv files (initState files) := by
  refine ⟨rfl, rfl, by simp [initState], by simp [initState, List.range_zero], ?_, ?_, ?_, ?_⟩
  · intro st hst hdone
    simp only [initState, List.mem_cons] at hst
    rcases hst with rfl | rfl | rfl | h
    · exact absurd hdone (by simp)
    · exact absurd hdone (by simp)
    · exact absurd hdone (by simp)
    · exact absurd h (List.not_mem_nil st)
  · intro w idx hw
    have : ∀ st ∈ (initState files).workers, st = WStatus.idle := by
      intro st hst
      simp only [initState, List.mem_cons] at hst
      rcases hst with rfl | rfl | rfl | h
      · rfl
      · rfl
      · rfl
      · exact absurd h (List.not_mem_nil st)
    rcases List.getElem?_eq_some.mp hw with ⟨hlt, hval⟩
    have := this _ (List.getElem_mem hlt)
    rw [this] at hval
    exact absurd hval (by simp)
  · intro i _
    rfl
  · simp [initState, sumLoaded]

lemma applyStep_inv {files : List UFile} {s s' : SchedState} {l : SchedStep}
    (hI : Inv files s) (h : applyStep s l = some s') : Inv files s' := by
  obtain ⟨h1, h2, h3, h4, h5, h6, h7, h8⟩ := hI
  cases l with
  | claim w =>
      rw [applyStep] at h
      cases hw : s.workers[w]? with
      | none => rw [hw] at h; exact absurd h (by simp)
      | some st =>
          rw [hw] at h
          cases st with
          | idle =>
              by_cases hc : s.cursor < s.files.length
              · rw [if_pos hc] at h
                injection h with h
                subst h
                refine ⟨h1, by simp [h2], by dsimp only; rw [h1] at hc; omega,
                  by simp [h4, List.range_succ], ?_, ?_, ?_, ?_⟩
                · intro st hst hdone
                  dsimp only at hst ⊢
                  rcases List.mem_or_eq_of_mem_set hst with hst | rfl
                  · have := h5 st hst hdone
                    rw [h1] at hc
                    omega
                  · exact absurd hdone (by simp)
                · intro w' idx hw'
                  dsimp only at hw' ⊢
                  by_cases hww : w = w'
                  · subst hww
                    rcases List.getElem?_eq_some.mp hw with ⟨hlt, _⟩
                    rw [List.getElem?_set_self (by simpa using hlt)] at hw'
                    injection hw' with hw'
                    injection hw' with hw'
                    omega
                  · rw [List.getElem?_set_ne hww] at hw'
                    have := h6 w' idx hw'
                    omega
                · intro i hi
                  dsimp only at hi ⊢
                  rw [if_neg (by omega)]
                  exact h7 i (by omega)
                · show s.uploadedBytes =
                    ((List.range s.files.length).map
                      (fun i => if i = s.cursor then 0 else s.lastLoaded i)).sum
                  rw [h8]
                  unfold sumLoaded
                  refine congrArg List.sum (List.map_congr_left fun i _ => ?_)
                  by_cases hic : i = s.cursor
                  · rw [if_pos hic, hic]
                    exact h7 s.cursor le_rfl
                  · rw [if_neg hic]
              · rw [if_neg hc] at h
                exact absurd h (by simp)
          | uploading idx => exact absurd h (by simp)
          | done => exact absurd h (by simp)
  | exitLoop w =>
      rw [applyStep] at h
      cases hw : s.workers[w]? with
      | none => rw [hw] at h; exact absurd h (by simp)
      | some st =>
          rw [hw] at h
          cases st with
          | idle =>
              by_cases hc : s.cursor < s.files.length
              · rw [if_pos hc] at h
                exact absurd h (by simp)
              · rw [if_neg hc] at h
                injection h with h
                subst h
                refine ⟨h1, by simp [h2], h3, h4, ?_, ?_, h7, ?_⟩
                · intro st hst hdone
                  dsimp only at hst ⊢
                  rcases List.mem_or_eq_of_mem_set hst with hst | rfl
                  · exact h5 st hst hdone
                  · rw [h1] at hc
                    omega
                · intro w' idx hw'
                  by_cases hww : w = w'
                  · subst hww
                    rcases List.getElem?_eq_some.mp hw with ⟨hlt, _⟩
                    rw [List.getElem?_set_self (by simpa using hlt)] at hw'
                    exact absurd hw' (by simp)
                  · rw [List.getElem?_set_ne hww] at hw'
                    exact h6 w' idx hw'
                · rw [h8]
                  exact (sumLoaded_congr rfl (fun i _ => rfl)).symm
          | uploading idx => exact absurd h (by simp)
          | done => exact absurd h (by simp)
  | progress w c v =>
      rw [applyStep] at h
      cases hw : s.workers[w]? with
      | none => rw [hw] at h; exact absurd h (by simp)
      | some st =>
          rw [hw] at h
          cases st with
          | idle => exact absurd h (by simp)
          | done => exact absurd h (by simp)
          | uploading idx =>
              cases c with
              | false =>
                  dsimp only at h
                  rw [if_neg (by simp)] at h
                  injection h with h
                  subst h
                  exact ⟨h1, h2, h3, h4, h5, h6, h7, h8⟩
              | true =>
                  dsimp only at h
                  rw [if_pos rfl] at h
                  injection h with h
                  subst h
                  have hidx : idx < s.cursor := h6 w idx hw
                  refine ⟨h1, h2, h3, h4, h5, h6, ?_, ?_⟩
                  · intro i hi
                    dsimp only at hi ⊢
                    rw [if_neg (by omega)]
                    exact h7 i hi
                  · show s.uploadedBytes + (v - s.lastLoaded idx) =
                        ((List.range s.files.length).map
                          (fun i => if i = idx then v else s.lastLoaded i)).sum
                    rw [sum_map_range_update s.files.length s.lastLoaded idx v
                      (by rw [h1]; omega)]
                    rw [h8]
                    rfl
  | finishOk w =>
      rw [applyStep] at h
      cases hw : s.workers[w]? with
      | none => rw [hw] at h; exact absurd h (by simp)
      | some st =>
          rw [hw] at h
          cases st with
          | idle => exact absurd h (by simp)
          | done => exact absurd h (by simp)
          | uploading idx =>
              injection h with h
              subst h
              refine ⟨h1, by simp [h2], h3, h4, ?_, ?_, h7, ?_⟩
              · intro st hst hdone
                rcases List.mem_or_eq_of_mem_set hst with hst | rfl
                · exact h5 st hst hdone
                · exact absurd hdone (by simp)
              · intro w' idx' hw'
                by_cases hww : w = w'
                · subst hww
                  rcases List.getElem?_eq_some.mp hw with ⟨hlt, _⟩
                  rw [List.getElem?_set_self (by simpa using hlt)] at hw'
                  exact absurd hw' (by simp)
                · rw [List.getElem?_set_ne hww] at hw'
                  exact h6 w' idx' hw'
              · rw [h8]
                exact (sumLoaded_congr rfl (fun i _ => rfl)).symm
  | finishErr w msg cb =>
      rw [applyStep] at h
      cases hw : s.workers[w]? with
      | none => rw [hw] at h; exact absurd h (by simp)
      | some st =>
          rw [hw] at h
          cases st with
          | idle => exact absurd h (by simp)
          | done => exact absurd h (by simp)
          | uploading idx =>
              injection h with h
              subst h
              refine ⟨h1, by simp [h2], h3, h4, ?_, ?_, h7, ?_⟩
              · intro st hst hdone
                rcases List.mem_or_eq_of_mem_set hst with hst | rfl
                · exact h5 st hst hdone
                · exact absurd hdone (by simp)
              · intro w' idx' hw'
                by_cases hww : w = w'
                · subst hww
                  rcases List.getElem?_eq_some.mp hw with ⟨hlt, _⟩
                  rw [List.getElem?_set_self (by simpa using hlt)] at hw'
                  exact absurd hw' (by simp)
                · rw [List.getElem?_set_ne hww] at hw'
                  exact h6 w' idx' hw'
              · rw [h8]
                exact (sumLoaded_congr rfl (fun i _ => rfl)).symm

lemma validRun_inv {files : List UFile} :
    ∀ {tr : List SchedStep} {s s' : SchedState},
      Inv files s → validRun s tr = some s' → Inv files s' := by
  intro tr
  induction tr with
  | nil =>
      intro s s' hI h
      rw [validRun] at h
      injection h with h
      subst h
      exact hI
  | cons l ls ih =>
      intro s s' hI h
      rw [validRun] at h
      cases ha : applyStep s l with
      | none => rw [ha] at h; exact absurd h (by simp)
      | some s1 =>
          rw [ha] at h
          exact ih (applyStep_inv hI ha) h

lemma applyStep_errors {s s' : SchedState} {l : SchedStep}
    (h : applyStep s l = some s') : ∃ t, s'.errors = s.errors ++ t := by
  cases l with
  | claim w =>
      rw [applyStep] at h
      cases hw : s.workers[w]? with
      | none => rw [hw] at h; exact absurd h (by simp)
      | some st =>
          rw [hw] at h
          cases st with
          | idle =>
              by_cases hc : s.cursor < s.files.length
              · rw [if_pos hc] at h
                injection h with h
                subst h
                exact ⟨[], by simp⟩
              · rw [if_neg hc] at h
                exact absurd h (by simp)
          | uploading idx => exact absurd h (by simp)
          | done => exact absurd h (by simp)
  | exitLoop w =>
      rw [applyStep] at h
      cases hw : s.workers[w]? with
      | none => rw [hw] at h; exact absurd h (by simp)
      | some st =>
          rw [hw] at h
          cases st with
          | idle =>
              by_cases hc : s.cursor < s.files.length
              · rw [if_pos hc] at h
                exact absurd h (by simp)
              · rw [if_neg hc] at h
                injection h with h
                subst h
                exact ⟨[], by simp⟩
          | uploading idx => exact absurd h (by simp)
          | done => exact absurd h (by simp)
  | progress w c v =>
      rw [applyStep] at h
      cases hw : s.workers[w]? with
      | none => rw [hw] at h; exact absurd h (by simp)
      | some st =>
          rw [hw] at h
          cases st with
          | idle => exact absurd h (by simp)
          | done => exact absurd h (by simp)
          | uploading idx =>
              cases c with
              | false =>
                  dsimp only at h
                  rw [if_neg (by simp)] at h
                  injection h with h
                  subst h
                  exact ⟨[], by simp⟩
              | true =>
                  dsimp only at h
                  rw [if_pos rfl] at h
                  injection h with h
                  subst h
                  exact ⟨[], by simp⟩
  | finishOk w =>
      rw [applyStep] at h
      cases hw : s.workers[w]? with
      | none => rw [hw] at h; exact absurd h (by simp)
      | some st =>
          rw [hw] at h
          cases st with
          | idle => exact absurd h (by simp)
          | done => exact absurd h (by simp)
          | uploading idx =>
              injection h with h
              subst h
              exact ⟨[], by simp⟩
  | finishErr w msg cb =>
      rw [applyStep] at h
      cases hw : s.workers[w]? with
      | none => rw [hw] at h; exact absurd h (by simp)
      | some st =>
          rw [hw] at h
          cases st with
          | idle => exact absurd h (by simp)
          | done => exact absurd h (by simp)
          | uploading idx =>
              injection h with h
              subst h
              refine ⟨_, rfl⟩

lemma validRun_errors : ∀ {tr : List SchedStep} {s s' : SchedState},
    validRun s tr = some s' → ∃ t, s'.errors = s.errors ++ t := by
  intro tr
  induction tr with
  | nil =>
      intro s s' h
      rw [validRun] at h
      injection h with h
      subst h
      exact ⟨[], by simp⟩
  | cons l ls ih =>
      intro s s' h
      rw [validRun] at h
      cases ha : applyStep s l with
      | none => rw [ha] at h; exact absurd h (by simp)
      | some s1 =>
          rw [ha] at h
          obtain ⟨t1, ht1⟩ := applyStep_errors ha
          obtain ⟨t2, ht2⟩ := ih h
          exact ⟨t1 ++ t2, by rw [ht2, ht1, List.append_assoc]⟩

lemma bounds_initState (files : List UFile) : LoadedBounds (initState files) :=
  fun _ => ⟨le_rfl, fun f _ => Int.ofNat_nonneg f.size⟩

lemma applyStep_bounds {s s' : SchedState} {l : SchedStep}
    (hB : LoadedBounds s) (hT : stepTransportOk s l = true)
    (h : applyStep s l = some s') : LoadedBounds s' := by
  cases l with
  | claim w =>
      rw [applyStep] at h
      cases hw : s.workers[w]? with
      | none => rw [hw] at h; exact absurd h (by simp)
      | some st =>
          rw [hw] at h
          cases st with
          | idle =>
              by_cases hc : s.cursor < s.files.length
              · rw [if_pos hc] at h
                injection h with h
                subst h
                intro i
                dsimp only
                by_cases hic : i = s.cursor
                · rw [if_pos hic]
                  exact ⟨le_rfl, fun f _ => Int.ofNat_nonneg f.size⟩
                · rw [if_neg hic]
                  exact hB i
              · rw [if_neg hc] at h
                exact absurd h (by simp)
          | uploading idx => exact absurd h (by simp)
          | done => exact absurd h (by simp)
  | exitLoop w =>
      rw [applyStep] at h
      cases hw : s.workers[w]? with
      | none => rw [hw] at h; exact absurd h (by simp)
      | some st =>
          rw [hw] at h
          cases st with
          | idle =>
              by_cases hc : s.cursor < s.files.length
              · rw [if_pos hc] at h
                exact absurd h (by simp)
              · rw [if_neg hc] at h
                injection h with h
                subst h
                exact hB
          | uploading idx => exact absurd h (by simp)
          | done => exact absurd h (by simp)
  | progress w c v =>
      rw [applyStep] at h
      rw [stepTransportOk] at hT
      cases hw : s.workers[w]? with
      | none => rw [hw] at h; exact absurd h (by simp)
      | some st =>
          rw [hw] at h
          rw [hw] at hT
          cases st with
          | idle => exact absurd h (by simp)
          | done => exact absurd h (by simp)
          | uploading idx =>
              cases c with
              | false =>
                  dsimp only at h
                  rw [if_neg (by simp)] at h
                  injection h with h
                  subst h
                  exact hB
              | true =>
                  dsimp only at h hT
                  rw [if_pos rfl] at h
                  rw [if_pos rfl] at hT
                  injection h with h
                  subst h
                  cases hf : s.files[idx]? with
                  | none => rw [hf] at hT; exact absurd hT (by simp)
                  | some f =>
                      rw [hf] at hT
                      rw [decide_eq_true_eq] at hT
                      intro i
                      dsimp only
                      by_cases hic : i = idx
                      · rw [if_pos hic]
                        refine ⟨hT.1, fun f' hf' => ?_⟩
                        rw [hic] at hf'
                        rw [hf] at hf'
                        injection hf' with hf'
                        subst hf'
                        exact hT.2
                      · rw [if_neg hic]
                        exact hB i
  | finishOk w =>
      rw [applyStep] at h
      cases hw : s.workers[w]? with
      | none => rw [hw] at h; exact absurd h (by simp)
      | some st =>
          rw [hw] at h
          cases st with
          | idle => exact absurd h (by simp)
          | done => exact absurd h (by simp)
          | uploading idx =>
              injection h with h
              subst h
              exact hB
  | finishErr w msg cb =>
      rw [applyStep] at h
      cases hw : s.workers[w]? with
      | none => rw [hw] at h; exact absurd h (by simp)
      | some st =>
          rw [hw] at h
          cases st with
          | idle => exact absurd h (by simp)
          | done => exact absurd h (by simp)
          | uploading idx =>
              injection h with h
              subst h
              exact hB

lemma validRun_bounds : ∀ {tr : List SchedStep} {s s' : SchedState},
    LoadedBounds s → transportOk s tr = true → validRun s tr = some s' →
    LoadedBounds s' := by
  intro tr
  induction tr with
  | nil =>
      intro s s' hB _ h
      rw [validRun] at h
      injection h with h
      subst h
      exact hB
  | cons l ls ih =>
      intro s s' hB hT h
      rw [validRun] at h
      rw [transportOk, Bool.and_eq_true] at hT
      cases ha : applyStep s l with
      | none => rw [ha] at h; exact absurd h (by simp)
      | some s1 =>
          rw [ha] at h
          have hT2 : transportOk s1 ls = true := by
            have := hT.2
            rw [ha] at this
            exact this
          exact ih (applyStep_bounds hB hT.1 ha) hT2 h

lemma validRun_append (tr1 : List SchedStep) :
    ∀ (s : SchedState) (tr2 : List SchedStep),
      validRun s (tr1 ++ tr2) =
        match validRun s tr1 with
        | some s1 => validRun s1 tr2
        | none => none := by
  induction tr1 with
  | nil =>
      intro s tr2
      rw [List.nil_append, validRun]
  | cons l ls ih =>
      intro s tr2
      rw [List.cons_append, validRun, validRun]
      cases ha : applyStep s l with
      | none => rfl
      | some s1 => exact ih s1 tr2

lemma allDone_claims {files : List UFile} {s' : SchedState}
    (hI : Inv files s') (hd : allDone s' = true) :
    s'.claims = List.range files.length := by
  obtain ⟨h1, h2, h3, h4, h5, h6, h7, h8⟩ := hI
  obtain ⟨st, hst⟩ := List.exists_mem_of_length_pos (by omega :
    0 < s'.workers.length)
  have hdone : st = WStatus.done := by
    have := (List.all_eq_true.mp hd) st hst
    simpa using this
  rw [h4, h5 st hst hdone]

lemma sum_range_getElem (files : List UFile) :
    ((List.range files.length).map (fun i =>
      match files[i]? with
      | some f => (f.size : Int)
      | none => 0)).sum = (files.map (fun f => (f.size : Int))).sum := by
  induction files with
  | nil => simp
  | cons f rest ih =>
      rw [List.length_cons, List.range_succ_eq_map, List.map_cons, List.sum_cons,
        List.map_map, List.map_cons, List.sum_cons]
      congr 1
      · simp
      · rw [← ih]
        refine congrArg List.sum (List.map_congr_left fun i _ => ?_)
        simp [Function.comp, List.getElem?_cons_succ]

/-- Claim C5: at no instant during a run are more than 3 transfers in
flight (there are only 3 workers, each with at most one in-flight file),
and when a run settles (all workers returned) the log of claims made
through the shared cursor is exactly `0, 1, ..., files.length - 1`: every
file of the batch was claimed and attempted exactly once. The atomicity of
the claim label embeds the source fact that the cursor read-and-increment
(api.js lines 782-785) contains no suspension point. -/
theorem C5_theorem (files : List UFile) (tr : List SchedStep)
    (h : (validRun (initState files) tr).isSome = true) :
    ∃ s', validRun (initState files) tr = some s' ∧
      s'.workers.length = 3 ∧ inFlight s' ≤ 3 ∧
      (allDone s' = true →
        s'.claims = List.range files.length ∧ s'.claims.Nodup) := by
  cases hr : validRun (initState files) tr with
  | none => rw [hr] at h; exact absurd h (by simp)
  | some s' =>
      have hI := validRun_inv (inv_initState files) hr
      refine ⟨s', rfl, hI.2.1, ?_, ?_⟩
      · unfold inFlight
        calc (s'.workers.filter _).length
            ≤ s'.workers.length := List.length_filter_le _ _
          _ = 3 := hI.2.1
      · intro hd
        have hclaims := allDone_claims hI hd
        exact ⟨hclaims, hclaims ▸ List.nodup_range files.length⟩

/-- Claim C5 witness: a full successful 4-file run with 3 workers through
`C5_theorem`. -/
theorem C5_witness :
    ∃ s', validRun (initState [⟨"a", 1, ""⟩, ⟨"b", 2, ""⟩, ⟨"c", 3, ""⟩, ⟨"d", 4, ""⟩])
        [SchedStep.claim 0, SchedStep.claim 1, SchedStep.claim 2,
         SchedStep.finishOk 0, SchedStep.claim 0, SchedStep.finishOk 1,
         SchedStep.exitLoop 1, SchedStep.finishOk 2, SchedStep.exitLoop 2,
         SchedStep.finishOk 0, SchedStep.exitLoop 0] = some s' ∧
      s'.workers.length = 3 ∧ inFlight s' ≤ 3 ∧
      (allDone s' = true →
        s'.claims = List.range (List.length
          [(⟨"a", 1, ""⟩ : UFile), ⟨"b", 2, ""⟩, ⟨"c", 3, ""⟩, ⟨"d", 4, ""⟩]) ∧
        s'.claims.Nodup) :=
  C5_theorem [⟨"a", 1, ""⟩, ⟨"b", 2, ""⟩, ⟨"c", 3, ""⟩, ⟨"d", 4, ""⟩]
    [SchedStep.claim 0, SchedStep.claim 1, SchedStep.claim 2,
     SchedStep.finishOk 0, SchedStep.claim 0, SchedStep.finishOk 1,
     SchedStep.exitLoop 1, SchedStep.finishOk 2, SchedStep.exitLoop 2,
     SchedStep.finishOk 0, SchedStep.exitLoop 0] (by decide)

/-- Claim C9: whenever a file's upload fails anywhere in a run, the error is
caught locally: the string `"<filename>: <message>"` is appended to the
batch's error list (twice when the rejection came through the XHR error
path, whose `onError` callback also appends) and persists to the end of the
run; the failing worker merely returns to its claim loop (workers set back
to idle, cursor untouched), and if the run settles, every file of the batch
was still claimed exactly once — no sibling worker and no part of the batch
is aborted. -/
theorem C9_theorem (files : List UFile) (tr1 : List SchedStep) (w : Nat)
    (msg : String) (cb : Bool) (tr2 : List SchedStep)
    (h : (validRun (initState files)
      (tr1 ++ SchedStep.finishErr w msg cb :: tr2)).isSome = true) :
    ∃ (s1 s2 s' : SchedState) (idx : Nat) (f : UFile),
      validRun (initState files) tr1 = some s1 ∧
      s1.workers[w]? = some (WStatus.uploading idx) ∧
      files[idx]? = some f ∧
      applyStep s1 (SchedStep.finishErr w msg cb) = some s2 ∧
      s2.workers = s1.workers.set w WStatus.idle ∧
      s2.cursor = s1.cursor ∧
      s2.errors = s1.errors ++
        (if cb then [f.name ++ ": " ++ msg, f.name ++ ": " ++ msg]
         else [f.name ++ ": " ++ msg]) ∧
      validRun (initState files) (tr1 ++ SchedStep.finishErr w msg cb :: tr2) =
        some s' ∧
      (f.name ++ ": " ++ msg) ∈ s'.errors ∧
      (allDone s' = true → s'.claims = List.range files.length) := by
  cases hr : validRun (initState files) (tr1 ++ SchedStep.finishErr w msg cb :: tr2) with
  | none => rw [hr] at h; exact absurd h (by simp)
  | some s' =>
      have hI' := validRun_inv (inv_initState files) hr
      rw [validRun_append] at hr
      cases h1 : validRun (initState files) tr1 with
      | none => rw [h1] at hr; exact absurd hr (by simp)
      | some s1 =>
          rw [h1] at hr
          dsimp only at hr
          rw [validRun] at hr
          cases ha : applyStep s1 (SchedStep.finishErr w msg cb) with
          | none => rw [ha] at hr; exact absurd hr (by simp)
          | some s2 =>
              rw [ha] at hr
              have hI1 := validRun_inv (inv_initState files) h1
              have ha' := ha
              rw [applyStep] at ha'
              cases hw : s1.workers[w]? with
              | none => rw [hw] at ha'; exact absurd ha' (by simp)
              | some st =>
                  rw [hw] at ha'
                  cases st with
                  | idle => exact absurd ha' (by simp)
                  | done => exact absurd ha' (by simp)
                  | uploading idx =>
                      injection ha' with ha'
                      have hidx : idx < s1.cursor := hI1.2.2.2.2.2.1 w idx hw
                      have hlen : idx < files.length := by
                        have := hI1.2.2.1
                        omega
                      have hf : files[idx]? = some files[idx] :=
                        List.getElem?_eq_getElem hlen
                      have hsf : s1.files[idx]? = some files[idx] := by
                        rw [hI1.1, hf]
                      refine ⟨s1, s2, s', idx, files[idx], rfl, hw, hf, ha, ?_, ?_, ?_,
                        rfl, ?_, fun hd => allDone_claims hI' hd⟩
                      · rw [← ha']
                      · rw [← ha']
                      · rw [← ha']
                        dsimp only
                        rw [hsf]
                      · obtain ⟨t, ht⟩ := validRun_errors hr
                        rw [ht]
                        refine List.mem_append_left t ?_
                        rw [← ha']
                        dsimp only
                        rw [hsf]
                        refine List.mem_append_right _ ?_
                        cases cb with
                        | false => exact List.mem_singleton.mpr rfl
                        | true => exact List.mem_cons_self _ _

/-- Claim C9 witness: `C9_theorem` on a concrete run in which file `b`'s
transfer rejects through the XHR error path while file `a` completes. -/
theorem C9_witness :
    ∃ (s1 s2 s' : SchedState) (idx : Nat) (f : UFile),
      validRun (initState [⟨"a", 10, ""⟩, ⟨"b", 20, ""⟩])
        [SchedStep.claim 0, SchedStep.claim 1, SchedStep.exitLoop 2,
         SchedStep.progress 0 true 10, SchedStep.finishOk 0, SchedStep.exitLoop 0] =
        some s1 ∧
      s1.workers[1]? = some (WStatus.uploading idx) ∧
      [(⟨"a", 10, ""⟩ : UFile), ⟨"b", 20, ""⟩][idx]? = some f ∧
      applyStep s1 (SchedStep.finishErr 1 "上传失败" true) = some s2 ∧
      s2.workers = s1.workers.set 1 WStatus.idle ∧
      s2.cursor = s1.cursor ∧
      s2.errors = s1.errors ++
        (if true then [f.name ++ ": " ++ "上传失败", f.name ++ ": " ++ "上传失败"]
         else [f.name ++ ": " ++ "上传失败"]) ∧
      validRun (initState [⟨"a", 10, ""⟩, ⟨"b", 20, ""⟩])
        ([SchedStep.claim 0, SchedStep.claim 1, SchedStep.exitLoop 2,
          SchedStep.progress 0 true 10, SchedStep.finishOk 0, SchedStep.exitLoop 0] ++
         SchedStep.finishErr 1 "上传失败" true :: [SchedStep.exitLoop 1]) = some s' ∧
      (f.name ++ ": " ++ "上传失败") ∈ s'.errors ∧
      (allDone s' = true → s'.claims = List.range
        (List.length [(⟨"a", 10, ""⟩ : UFile), ⟨"b", 20, ""⟩])) :=
  C9_theorem [⟨"a", 10, ""⟩, ⟨"b", 20, ""⟩]
    [SchedStep.claim 0, SchedStep.claim 1, SchedStep.exitLoop 2,
     SchedStep.progress 0 true 10, SchedStep.finishOk 0, SchedStep.exitLoop 0]
    1 "上传失败" true [SchedStep.exitLoop 1] (by decide)

/-- Claim C2, counterexample. Batch of sizes 10 and 20: file `a` reports
full progress and completes, file `b` fails with no progress events, every
worker returns (the run settles with every file completed-or-failed), yet
`uploadedBytes` is 10, not `totalBytes = 30`: the failed file contributes
only the bytes it reported before failing, not its declared size. -/
theorem C2_counterexample :
    (validRun (initState [⟨"a", 10, ""⟩, ⟨"b", 20, ""⟩])
        [SchedStep.claim 0, SchedStep.claim 1, SchedStep.exitLoop 2,
         SchedStep.progress 0 true 10, SchedStep.finishOk 0, SchedStep.exitLoop 0,
         SchedStep.finishErr 1 "上传失败" true, SchedStep.exitLoop 1]).map
      (fun s => (s.uploadedBytes, allDone s, s.errors)) =
      some (10, true, ["b: 上传失败", "b: 上传失败"]) ∧
    totalBytesOf [⟨"a", 10, ""⟩, ⟨"b", 20, ""⟩] = 30 ∧
    transportOk (initState [⟨"a", 10, ""⟩, ⟨"b", 20, ""⟩])
      [SchedStep.claim 0, SchedStep.claim 1, SchedStep.exitLoop 2,
       SchedStep.progress 0 true 10, SchedStep.finishOk 0, SchedStep.exitLoop 0,
       SchedStep.finishErr 1 "上传失败" true, SchedStep.exitLoop 1] = true ∧
    (10 : Int) ≠ 30 := by
  decide

/-- Claim C2 as amended: throughout every run of an upload batch, under the
transport contract (each progress event reports `0 ≤ loaded ≤` the file's
declared size), `0 ≤ uploadedBytes ≤ totalBytes` holds at all times, and
`uploadedBytes = totalBytes` only when every file's last reported progress
equals its declared size — a failed file contributes only the bytes it
reported before failing, not its declared size. -/
theorem C2_theorem (files : List UFile) (tr : List SchedStep)
    (h : (validRun (initState files) tr).isSome = true)
    (ht : transportOk (initState files) tr = true) :
    ∃ s', validRun (initState files) tr = some s' ∧
      0 ≤ s'.uploadedBytes ∧ s'.uploadedBytes ≤ totalBytesOf files ∧
      (s'.uploadedBytes = totalBytesOf files →
        ∀ (i : Nat) (f : UFile), files[i]? = some f →
          s'.lastLoaded i = (f.size : Int)) := by
  cases hr : validRun (initState files) tr with
  | none => rw [hr] at h; exact absurd h (by simp)
  | some s' =>
      have hI := validRun_inv (inv_initState files) hr
      have hB := validRun_bounds (bounds_initState files) ht hr
      have hfe : s'.files = files := hI.1
      have h8 : s'.uploadedBytes = sumLoaded s' := hI.2.2.2.2.2.2.2
      have hle : ∀ i ∈ List.range files.length,
          s'.lastLoaded i ≤ (fun i =>
            match files[i]? with
            | some f => (f.size : Int)
            | none => 0) i := by
        intro i hi
        have hlt : i < files.length := List.mem_range.mp hi
        have hf : files[i]? = some files[i] := List.getElem?_eq_getElem hlt
        dsimp only
        rw [hf]
        exact (hB i).2 files[i] (by rw [hfe, hf])
      have hsum : sumLoaded s' ≤ (files.map (fun f => (f.size : Int))).sum := by
        unfold sumLoaded
        rw [hfe]
        calc ((List.range files.length).map s'.lastLoaded).sum
            ≤ ((List.range files.length).map (fun i =>
                match files[i]? with
                | some f => (f.size : Int)
                | none => 0)).sum := List.sum_le_sum hle
          _ = (files.map (fun f => (f.size : Int))).sum := sum_range_getElem files
      have hnn : 0 ≤ sumLoaded s' := by
        unfold sumLoaded
        refine List.sum_nonneg ?_
        intro x hx
        obtain ⟨i, _, rfl⟩ := List.mem_map.mp hx
        exact (hB i).1
      refine ⟨s', rfl, by rw [h8]; exact hnn, ?_, ?_⟩
      · rw [h8]
        unfold totalBytesOf
        by_cases h0 : (files.map (fun f => (f.size : Int))).sum = 0
        · rw [if_pos h0]
          omega
        · rw [if_neg h0]
          exact hsum
      · intro heq i f hf
        by_contra hne
        have hlt : i < files.length := by
          rcases List.getElem?_eq_some.mp hf with ⟨hlt, _⟩
          exact hlt
        have hstrict : s'.lastLoaded i < (f.size : Int) := by
          have := (hB i).2 f (by rw [hfe]; exact hf)
          omega
        have hlt2 : sumLoaded s' < (files.map (fun f => (f.size : Int))).sum := by
          unfold sumLoaded
          rw [hfe]
          calc ((List.range files.length).map s'.lastLoaded).sum
              < ((List.range files.length).map (fun i =>
                  match files[i]? with
                  | some f => (f.size : Int)
                  | none => 0)).sum := by
                refine List.sum_lt_sum _ _ hle ⟨i, List.mem_range.mpr hlt, ?_⟩
                rw [hf]
                exact hstrict
            _ = (files.map (fun f => (f.size : Int))).sum := sum_range_getElem files
        rw [h8] at heq
        unfold totalBytesOf at heq
        by_cases h0 : (files.map (fun f => (f.size : Int))).sum = 0
        · rw [if_pos h0] at heq
          omega
        · rw [if_neg h0] at heq
          omega

/-- Claim C2 witness: `C2_theorem` on a fully successful single-file run. -/
theorem C2_witness :
    ∃ s', validRun (initState [⟨"a", 3, ""⟩])
        [SchedStep.claim 0, SchedStep.progress 0 true 3, SchedStep.finishOk 0,
         SchedStep.exitLoop 0, SchedStep.exitLoop 1, SchedStep.exitLoop 2] = some s' ∧
      0 ≤ s'.uploadedBytes ∧
      s'.uploadedBytes ≤ totalBytesOf [⟨"a", 3, ""⟩] ∧
      (s'.uploadedBytes = totalBytesOf [⟨"a", 3, ""⟩] →
        ∀ (i : Nat) (f : UFile), [(⟨"a", 3, ""⟩ : UFile)][i]? = some f →
          s'.lastLoaded i = (f.size : Int)) :=
  C2_theorem [⟨"a", 3, ""⟩]
    [SchedStep.claim 0, SchedStep.progress 0 true 3, SchedStep.finishOk 0,
     SchedStep.exitLoop 0, SchedStep.exitLoop 1, SchedStep.exitLoop 2]
    (by decide) (by decide)

/-- Claim C3, counterexample. One file of 8 bytes, a progress event with
`loaded = 3`: the source reports `min(100, Math.round((3/8)*100)) = 38`,
whereas `floor(uploadedBytes / totalBytes * 100) = ⌊37.5⌋ = 37`. -/
theorem C3_counterexample :
    (validRun (initState [⟨"a", 8, ""⟩])
        [SchedStep.claim 0, SchedStep.progress 0 true 3]).map
      (fun s => s.reports) = some [38] ∧
    transportOk (initState [⟨"a", 8, ""⟩])
      [SchedStep.claim 0, SchedStep.progress 0 true 3] = true ∧
    Int.fdiv (100 * 3) 8 = 37 ∧
    (38 : Int) ≠ 37 := by
  decide

/-- Claim C3 as amended: after every per-file progress event (with
`lengthComputable`), the scheduler adds the delta of that file's cumulative
loaded bytes against its last reported value to the batch's
`uploadedBytes`, and reports `min(100, round(uploadedBytes / totalBytes *
100))` (`Math.round`, i.e. `⌊x + 1/2⌋`, clamped at 100) — not `floor` — as
the aggregate percent; the delta accounting makes `uploadedBytes` equal at
all times to the sum of the per-file cumulative last-reported values, so
nothing is double-counted. -/
theorem C3_theorem :
    (∀ (s : SchedState) (w : Nat) (v : Int) (idx : Nat),
      s.workers[w]? = some (WStatus.uploading idx) →
      ∃ s', applyStep s (SchedStep.progress w true v) = some s' ∧
        s'.uploadedBytes = s.uploadedBytes + (v - s.lastLoaded idx) ∧
        s'.lastLoaded idx = v ∧
        s'.reports = s.reports ++
          [min 100 (jsRound (100 * s'.uploadedBytes) (totalBytesOf s.files))]) ∧
    (∀ (files : List UFile) (tr : List SchedStep),
      (validRun (initState files) tr).isSome = true →
      ∃ s', validRun (initState files) tr = some s' ∧
        s'.uploadedBytes = sumLoaded s') := by
  constructor
  · intro s w v idx hw
    refine ⟨{ s with
        uploadedBytes := s.uploadedBytes + (v - s.lastLoaded idx),
        lastLoaded := fun i => if i = idx then v else s.lastLoaded i,
        reports := s.reports ++
          [min 100 (jsRound (100 * (s.uploadedBytes + (v - s.lastLoaded idx)))
            (totalBytesOf s.files))] }, ?_, rfl, ?_, rfl⟩
    · rw [applyStep, hw]
      dsimp only
      rw [if_pos rfl]
    · dsimp only
      rw [if_pos rfl]
  · intro files tr h
    cases hr : validRun (initState files) tr with
    | none => rw [hr] at h; exact absurd h (by simp)
    | some s' =>
        exact ⟨s', rfl, (validRun_inv (inv_initState files) hr).2.2.2.2.2.2.2⟩

/-- Claim C3 witness: the amended progress-step shape at a concrete state
(worker 0 uploading file 0 of size 8, event `loaded = 3`), and the
no-double-count sum on a concrete run. -/
theorem C3_witness :
    (∃ s', applyStep
        ⟨[⟨"a", 8, ""⟩], 1, [WStatus.uploading 0, WStatus.idle, WStatus.idle],
          fun _ => 0, 0, [], [], [0]⟩
        (SchedStep.progress 0 true 3) = some s' ∧
      s'.uploadedBytes =
        (⟨[⟨"a", 8, ""⟩], 1, [WStatus.uploading 0, WStatus.idle, WStatus.idle],
          fun _ => 0, 0, [], [], [0]⟩ : SchedState).uploadedBytes +
        (3 - (⟨[⟨"a", 8, ""⟩], 1, [WStatus.uploading 0, WStatus.idle, WStatus.idle],
          fun _ => 0, 0, [], [], [0]⟩ : SchedState).lastLoaded 0) ∧
      s'.lastLoaded 0 = 3 ∧
      s'.reports =
        (⟨[⟨"a", 8, ""⟩], 1, [WStatus.uploading 0, WStatus.idle, WStatus.idle],
          fun _ => 0, 0, [], [], [0]⟩ : SchedState).reports ++
        [min 100 (jsRound (100 * s'.uploadedBytes)
          (totalBytesOf (⟨[⟨"a", 8, ""⟩], 1,
            [WStatus.uploading 0, WStatus.idle, WStatus.idle],
            fun _ => 0, 0, [], [], [0]⟩ : SchedState).files))]) ∧
    (∃ s', validRun (initState [⟨"a", 8, ""⟩])
        [SchedStep.claim 0, SchedStep.progress 0 true 3] = some s' ∧
      s'.uploadedBytes = sumLoaded s') :=
  ⟨C3_theorem.1 ⟨[⟨"a", 8, ""⟩], 1, [WStatus.uploading 0, WStatus.idle, WStatus.idle],
      fun _ => 0, 0, [], [], [0]⟩ 0 3 0 rfl,
   C3_theorem.2 [⟨"a", 8, ""⟩] [SchedStep.claim 0, SchedStep.progress 0 true 3]
     (by decide)⟩

end Ceagle
